import Mathlib

/-!
Verification of the merge engine of `combine_feature.py`
(class `VariableFeatureCombiner`).

The Python code parses OpenType feature text with regular expressions,
merges glyph classes and kern statements across designspace masters, and
serializes a combined variable-syntax feature file.  This file gives a
shallow embedding of that logic:

* feature text is modelled as `List Char` (the code treats `str` as a
  sequence of characters);
* Python `dict`s are modelled as association lists with insertion-order
  semantics (`dictLookup`, `dictInsert`): assignment to an existing key
  keeps its position, assignment to a fresh key appends;
* Python `set`s of strings are modelled as `Finset String` where the
  iteration order is irrelevant, and as duplicate-free lists where the
  code only uses the set for membership before sorting;
* each regular expression of the source is embedded as a deterministic
  scanner that implements the leftmost-match backtracking semantics of
  the specific pattern (documented at each definition);
* the character classes `\s`, `\w`, `[a-zA-Z0-9_.]` are modelled over
  their ASCII fragment, which is exact for all inputs considered here.

Numbers: kern values and axis coordinates are modelled as `Int`
(`int(...)` in the code; f-string rendering of an `int` agrees with
`toString : Int → String`).
-/

namespace Feamerge

/-- ASCII fragment of Python regex `\s` and of `str.split()` whitespace:
space, tab, newline, carriage return, vertical tab, form feed. -/
def isPyWs (c : Char) : Bool :=
  c == ' ' || c == '\t' || c == '\n' || c == '\r' || c == '\x0b' || c == '\x0c'

/-- The character class `[a-zA-Z0-9_.]` of the glyph-class name pattern. -/
def isNameChar (c : Char) : Bool :=
  c.isAlpha || c.isDigit || c == '_' || c == '.'

/-- ASCII fragment of Python regex `\w` (used for feature tags). -/
def isWordChar (c : Char) : Bool :=
  c.isAlpha || c.isDigit || c == '_'

/-- Does `pat` occur as the leading segment of `l`?  (Model of a regex
literal matching at the current position.) -/
def leadsWith : List Char → List Char → Bool
  | [], _ => true
  | _ :: _, [] => false
  | p :: ps, c :: cs => p == c && leadsWith ps cs

/-- Index of the first occurrence of `pat` as a contiguous segment of `l`
(`none` if there is no occurrence).  This is the semantics of a lazy
`(.*?)` followed by the literal `pat` under `re.DOTALL`: the lazy group
stops at the earliest position where the literal matches. -/
def findSubFrom (pat : List Char) : List Char → Option Nat
  | [] => if leadsWith pat [] then some 0 else none
  | c :: cs => if leadsWith pat (c :: cs) then some 0 else (findSubFrom pat cs).map (· + 1)

/-- Python `str.strip()`: remove leading and trailing whitespace. -/
def pyStrip (l : List Char) : List Char :=
  ((l.dropWhile isPyWs).reverse.dropWhile isPyWs).reverse

/-- Worker for `wsTokens`; `cur` is the current (reversed) token being read. -/
def wsTokensAux : List Char → List Char → List (List Char)
  | cur, [] => if cur.isEmpty then [] else [cur.reverse]
  | cur, c :: cs =>
    if isPyWs c then
      if cur.isEmpty then wsTokensAux [] cs else cur.reverse :: wsTokensAux [] cs
    else wsTokensAux (c :: cur) cs

/-- Python `str.split()` with no argument: the maximal runs of
non-whitespace characters, in order; no empty tokens are produced. -/
def wsTokens (l : List Char) : List (List Char) := wsTokensAux [] l

/-- Python `sep.join(xs)` at character level. -/
def joinWith (sep : List Char) : List (List Char) → List Char
  | [] => []
  | [x] => x
  | x :: y :: xs => x ++ sep ++ joinWith sep (y :: xs)

/-- Python `sep.join(xs)` at string level (used for `" ".join` and
`"\n".join` in the source). -/
def pyJoin (sep : String) : List String → String
  | [] => ""
  | [x] => x
  | x :: y :: xs => x ++ sep ++ pyJoin sep (y :: xs)

/-- Python `dict` lookup on an insertion-ordered association list. -/
def dictLookup {κ α : Type} [DecidableEq κ] : List (κ × α) → κ → Option α
  | [], _ => none
  | p :: d, k => if p.1 = k then some p.2 else dictLookup d k

/-- Python `dict` assignment `d[k] = v`: an existing key keeps its
position in the iteration order, a fresh key is appended at the end. -/
def dictInsert {κ α : Type} [DecidableEq κ] : List (κ × α) → κ → α → List (κ × α)
  | [], k, v => [(k, v)]
  | p :: d, k, v => if p.1 = k then (k, v) :: d else p :: dictInsert d k v

/-! ### Class Parser

Embedding of `parse_glyph_classes`, whose single regex is
`@([a-zA-Z0-9_.]+)\s*=\s*\[(.*?)\];` with `re.DOTALL` and `re.finditer`.
Every quantifier of the pattern is determinate: the character sets of
`[a-zA-Z0-9_.]+`, `\s*`, and the literals `=`/`[` are pairwise disjoint,
so the greedy runs never backtrack, and the lazy `(.*?)` before the
literal `];` stops at the first occurrence of `];`. -/

/-- The closing literal of a class declaration. -/
def srb : List Char := [']', ';']

/-- Attempt to match the class-declaration pattern anchored at the head
of `l`.  On success returns `((name, bracketContent), restAfterMatch)`. -/
def matchClassAt : List Char → Option ((List Char × List Char) × List Char)
  | '@' :: r =>
    if (r.takeWhile isNameChar).isEmpty then none
    else
      match (r.drop (r.takeWhile isNameChar).length).dropWhile isPyWs with
      | '=' :: r2 =>
        match r2.dropWhile isPyWs with
        | '[' :: r3 =>
          match findSubFrom srb r3 with
          | some j => some ((r.takeWhile isNameChar, r3.take j), r3.drop (j + 2))
          | none => none
        | _ => none
      | _ => none
  | _ => none

/-- The `re.finditer` loop for the class pattern: scan left to right, and
after a match continue right after it.  `fuel` only bounds the recursion;
every step consumes at least one character, so `l.length` is enough. -/
def findClassesGo : Nat → List Char → List (List Char × List Char)
  | 0, _ => []
  | _ + 1, [] => []
  | fuel + 1, c :: cs =>
    match matchClassAt (c :: cs) with
    | some (m, rest) => m :: findClassesGo fuel rest
    | none => findClassesGo fuel cs

/-- All matches of the class-declaration pattern, in order. -/
def findClasses (l : List Char) : List (List Char × List Char) :=
  findClassesGo l.length l

/-- The list `[g.strip() for g in content.split() if g.strip()]` of the source. -/
def glyphsOfContent (content : List Char) : List (List Char) :=
  ((wsTokens content).map pyStrip).filter (fun t => !t.isEmpty)

/-- Character-level `parse_glyph_classes`: one dict entry per match,
later declarations of the same name overwriting earlier ones. -/
def parseClassesC (l : List Char) : List (List Char × List (List Char)) :=
  (findClasses l).foldl (fun acc m => dictInsert acc m.1 (glyphsOfContent m.2)) []

/-- Model of `VariableFeatureCombiner.parse_glyph_classes`: mapping from class
name to the ordered list of glyph tokens of its declaration. -/
def parse_glyph_classes (text : String) : List (String × List String) :=
  (parseClassesC text.data).map (fun p => (String.mk p.1, p.2.map String.mk))

/-! ### Master Registry

`load_ufo_features` stores, per source, its axis location (a partial
mapping axis tag → coordinate, in designspace order) and its raw feature
text, keyed by the source identifier.  Reading files is outside the
embedding; a populated registry is taken as input. -/

/-- One entry of `self.masters_data`: the location mapping and the
feature text of a master. -/
structure MasterData where
  location : List (String × Int)
  features : String
deriving DecidableEq

/-! ### Class Merger -/

/-- Python `set.add` on the duplicate-free list representing a set of
strings.  (The code only ever sorts the set afterwards, so the order of
this list is irrelevant; membership is what matters.) -/
def pySetInsert (s : List String) (g : String) : List String :=
  if g ∈ s then s else s ++ [g]

/-- Python `set.update(iterable)`. -/
def pySetUpdateList (s : List String) (gs : List String) : List String :=
  gs.foldl pySetInsert s

/-- Step `all_classes[class_name].update(glyphs)` on the
`defaultdict(set)` of `merge_classes`: an existing name keeps its
position, a fresh name is appended with the empty set updated. -/
def classUpdate : List (String × List String) → String → List String →
    List (String × List String)
  | [], n, gs => [(n, pySetUpdateList [] gs)]
  | p :: d, n, gs =>
    if p.1 = n then (p.1, pySetUpdateList p.2 gs) :: d else p :: classUpdate d n gs

/-- Python `sorted` on a list of strings (code-point lexicographic
order; on the duplicate-free lists produced by sets any correct sort
yields the same result, so a simple insertion sort is used). -/
def sortedStrings (l : List String) : List String :=
  List.insertionSort (· ≤ ·) l

/-- The cross-master part of `merge_classes`: fold the per-master class
parses into the `defaultdict(set)` and convert each set to a sorted
list. -/
def merge_parsed_classes (parses : List (List (String × List String))) :
    List (String × List String) :=
  let all := parses.foldl
    (fun acc classes => classes.foldl (fun a p => classUpdate a p.1 p.2) acc) []
  all.map (fun p => (p.1, sortedStrings p.2))

/-- Model of `VariableFeatureCombiner.merge_classes` (the value assigned to
`self.combined_classes`). -/
def merge_classes (masters_data : List (String × MasterData)) :
    List (String × List String) :=
  merge_parsed_classes (masters_data.map (fun p => parse_glyph_classes p.2.features))

/-! ### Kern Parser

Embedding of `parse_kern_pairs`.  The kern block is isolated with
`re.search(r'feature\s+kern\s*\{(.*?)\}\s*kern;', text, re.DOTALL)`,
then positioning statements are found with
`re.finditer(r'(enum\s+)?pos\s+([^(;]+?)(?:\s*\(([^)]*)\))?\s*:\s*([^;]+);', block)`.
The first pattern is determinate (the greedy pieces touch disjoint
character sets and the lazy group stops at the first position where
`\}\s*kern;` matches).  The second pattern genuinely backtracks:
whitespace belongs to `[^(;]` and to `[^;]`, so the scanners below try
the greedy `\s+` run from longest to shortest and the lazy glyph group
from shortest to longest, exactly in Python preference order. -/

/-- Smallest offset `j` such that the input has `}` at `j` followed by
optional whitespace and the literal `kern;` (the end of the lazy group
of the kern-block pattern). -/
def findKernEnd : List Char → Option Nat
  | [] => none
  | c :: cs =>
    if c == '}' && leadsWith ['k', 'e', 'r', 'n', ';'] (cs.dropWhile isPyWs) then some 0
    else (findKernEnd cs).map (· + 1)

/-- Match the kern-block pattern anchored at the head of `l`; returns
the block content (group 1). -/
def matchKernAt (l : List Char) : Option (List Char) :=
  if leadsWith ['f', 'e', 'a', 't', 'u', 'r', 'e'] l then
    let r := l.drop 7
    let w := (r.takeWhile isPyWs).length
    if w == 0 then none
    else if leadsWith ['k', 'e', 'r', 'n'] (r.drop w) then
      match ((r.drop w).drop 4).dropWhile isPyWs with
      | '{' :: r3 =>
        match findKernEnd r3 with
        | some j => some (r3.take j)
        | none => none
      | _ => none
    else none
  else none

/-- The `re.search` for the kern-block pattern: first match only. -/
def searchKernBlock : List Char → Option (List Char)
  | [] => none
  | c :: cs =>
    match matchKernAt (c :: cs) with
    | some b => some b
    | none => searchKernBlock cs

/-- The `\s*:\s*([^;]+);` tail of the pos pattern, at the current
position: optional whitespace, a colon, then the value group, which
runs to the first `;` (greedy `[^;]+` cannot cross it) and must be
nonempty; the greedy `\s*` after the colon yields characters back to
the value group when needed.  Returns `(valueGroup, restAfterMatch)`. -/
def matchColonValue (t : List Char) : Option (List Char × List Char) :=
  match t.dropWhile isPyWs with
  | ':' :: r =>
    match r.findIdx? (· == ';') with
    | some m =>
      if m == 0 then none
      else
        let k2 := min ((r.takeWhile isPyWs).length) (m - 1)
        some ((r.drop k2).take (m - k2), r.drop (m + 1))
    | none => none
  | _ => none

/-- The `(?:\s*\(([^)]*)\))?\s*:\s*([^;]+);` tail of the pos pattern:
the optional parenthesized condition group is preferred when it
matches through to the value; otherwise the colon-value tail matches
directly.  Returns `(conditionGroup?, valueGroup, restAfterMatch)`. -/
def matchPosTail (t : List Char) : Option (Option (List Char) × List Char × List Char) :=
  let parenBranch :=
    match t.dropWhile isPyWs with
    | '(' :: t2 =>
      let inner := t2.takeWhile (fun c => c != ')')
      match t2.drop inner.length with
      | ')' :: t3 => (matchColonValue t3).map (fun vr => (some inner, vr.1, vr.2))
      | _ => none
    | _ => none
  parenBranch <|> (matchColonValue t).map (fun vr => (none, vr.1, vr.2))

/-- Lazy expansion of the glyph group `([^(;]+?)`: try the extents
`e, e+1, ...` (at most `rem` candidates, all within the maximal run of
characters allowed by `[^(;]`), shortest first, returning the first
extent whose tail matches.  Returns
`(glyphGroup, conditionGroup?, valueGroup, restAfterMatch)`. -/
def tryGroupAux (p : List Char) :
    Nat → Nat → Option (List Char × Option (List Char) × List Char × List Char)
  | _, 0 => none
  | e, rem + 1 =>
    match matchPosTail (p.drop e) with
    | some cvr => some (p.take e, cvr.1, cvr.2.1, cvr.2.2)
    | none => tryGroupAux p (e + 1) rem

/-- Glyph group starting at `p` (lazy, nonempty, inside `[^(;]`). -/
def tryGroup (p : List Char) :
    Option (List Char × Option (List Char) × List Char × List Char) :=
  tryGroupAux p 1 ((p.takeWhile (fun c => c != '(' && c != ';')).length)

/-- Backtracking over the greedy `\s+` after `pos`: try `k` whitespace
characters for `k` from the maximal run down to 1 (whitespace given
back is picked up by the glyph group, which accepts it). -/
def tryFromWs (l0 : List Char) :
    Nat → Option (List Char × Option (List Char) × List Char × List Char)
  | 0 => none
  | k + 1 =>
    match tryGroup (l0.drop (k + 1)) with
    | some res => some res
    | none => tryFromWs l0 k

/-- Match `pos\s+([^(;]+?)...` anchored at the head of `l`. -/
def matchPosCore (l : List Char) :
    Option (List Char × Option (List Char) × List Char × List Char) :=
  if leadsWith ['p', 'o', 's'] l then
    let l0 := l.drop 3
    let wsMax := (l0.takeWhile isPyWs).length
    if wsMax == 0 then none else tryFromWs l0 wsMax
  else none

/-- Match the full pos pattern anchored at the head of `l`, preferring
the optional `(enum\s+)` group when it is present (its `\s+` is
determinate because `pos` starts with a non-whitespace character).
Returns `((isEnum, glyphGroup, conditionGroup?, valueGroup), rest)`. -/
def matchPosAt (l : List Char) :
    Option ((Bool × List Char × Option (List Char) × List Char) × List Char) :=
  let enumBranch :=
    if leadsWith ['e', 'n', 'u', 'm'] l then
      let r := l.drop 4
      let w := (r.takeWhile isPyWs).length
      if w == 0 then none
      else (matchPosCore (r.drop w)).map
        (fun res => ((true, res.1, res.2.1, res.2.2.1), res.2.2.2))
    else none
  enumBranch <|> (matchPosCore l).map
    (fun res => ((false, res.1, res.2.1, res.2.2.1), res.2.2.2))

/-- The `re.finditer` loop for the pos pattern inside the kern block.  As
with `findClassesGo`, every step consumes at least one character, so
`l.length` fuel is enough. -/
def findPosGo : Nat → List Char → List (Bool × List Char × Option (List Char) × List Char)
  | 0, _ => []
  | _ + 1, [] => []
  | fuel + 1, c :: cs =>
    match matchPosAt (c :: cs) with
    | some (m, rest) => m :: findPosGo fuel rest
    | none => findPosGo fuel cs

/-- All matches of the pos pattern, in order. -/
def findPos (l : List Char) : List (Bool × List Char × Option (List Char) × List Char) :=
  findPosGo l.length l

/-- One record of the list built by `parse_kern_pairs` (keys `enum`,
`glyphs`, `conditions`, `value` of the Python dict). -/
structure KernPair where
  is_enum : Bool
  glyphs : String
  conditions : Option String
  value : String
deriving DecidableEq

/-- Model of `VariableFeatureCombiner.parse_kern_pairs`. -/
def parse_kern_pairs (text : String) : List KernPair :=
  match searchKernBlock text.data with
  | none => []
  | some block =>
    (findPos block).map (fun m =>
      { is_enum := m.1
        glyphs := String.mk (pyStrip m.2.1)
        conditions := m.2.2.1.map String.mk
        value := String.mk (pyStrip m.2.2.2) })

/-! ### Kern Combiner -/

/-- Value of the digit string as a natural number (`int` on a digit
literal, leading zeros allowed). -/
def digitsToNat (ds : List Char) : Nat :=
  ds.foldl (fun n c => n * 10 + (c.toNat - 48)) 0

/-- Model of `re.search(r'(-?\d+)', value)` followed by `int(...)`: the first
signed integer literal of the text, scanning left to right; at each
position a `-` immediately followed by digits is preferred, a bare
digit run is taken otherwise, and the digit run is maximal. -/
def firstIntLiteral : List Char → Option Int
  | [] => none
  | c :: cs =>
    if c == '-' then
      match cs with
      | d :: _ =>
        if d.isDigit then some (-(digitsToNat (cs.takeWhile Char.isDigit) : Int))
        else firstIntLiteral cs
      | [] => none
    else if c.isDigit then some ((digitsToNat ((c :: cs).takeWhile Char.isDigit) : Int))
    else firstIntLiteral cs

/-- Merge key of a kern statement: `(pair['glyphs'], pair.get('enum', False))`. -/
abbrev KernKey := String × Bool

/-- The `defaultdict(dict)` of `combine_kern_features`: merge key →
(master identifier → numeric value), both dicts in insertion order. -/
abbrev KernTable := List (KernKey × List (String × Int))

/-- Step `all_kern_pairs[pair_key][master_name] = numeric_value`. -/
def kernUpdate : KernTable → KernKey → String → Int → KernTable
  | [], key, m, v => [(key, [(m, v)])]
  | e :: d, key, m, v =>
    if e.1 = key then (e.1, dictInsert e.2 m v) :: d else e :: kernUpdate d key m v

/-- The accumulation loop of `combine_kern_features` over the per-master
parsed kern pairs: statements whose value text has no integer literal
are skipped, the others are grouped by merge key. -/
def accumulate_kern_pairs (parsed : List (String × List KernPair)) : KernTable :=
  parsed.foldl (fun acc mp =>
    mp.2.foldl (fun a pair =>
      match firstIntLiteral pair.value.data with
      | some v => kernUpdate a (pair.glyphs, pair.is_enum) mp.1 v
      | none => a) acc) []

/-! ### Variable Value Formatter -/

/-- The `f"{axis_tag}={axis_value}"` coordinate fragments of a location. -/
def formatLocation (location : List (String × Int)) : List String :=
  location.map (fun a => a.1 ++ "=" ++ toString a.2)

/-- Model of `VariableFeatureCombiner.format_variable_value`: masters missing
from the registry and masters with an empty location contribute no
fragment; with no fragments at all the result is the literal `"0"`. -/
def format_variable_value (masters_data : List (String × MasterData))
    (master_values : List (String × Int)) : String :=
  if master_values.isEmpty then "0"
  else
    let coordinate_values := master_values.foldl (fun acc mv =>
      match dictLookup masters_data mv.1 with
      | some md =>
        let coords := formatLocation md.location
        if coords.isEmpty then acc
        else acc ++ [pyJoin " " coords ++ ":" ++ toString mv.2]
      | none => acc) []
    if coordinate_values.isEmpty then "0" else pyJoin " " coordinate_values

/-- The fragments one entry of the value mapping appends to
`coordinate_values` in `format_variable_value`: none for an
unregistered master or an empty location, and a single
`"axis=coord ...:value"` fragment otherwise.  (Reasoning companion to
`format_variable_value`; the loop of the source appends exactly these.) -/
def coordinate_fragments (masters_data : List (String × MasterData))
    (mv : String × Int) : List String :=
  match dictLookup masters_data mv.1 with
  | some md =>
    if (formatLocation md.location).isEmpty then []
    else [pyJoin " " (formatLocation md.location) ++ ":" ++ toString mv.2]
  | none => []

/-- The merged statement rendered for one entry of the kern table:
`f"    {enum_prefix}pos {glyphs} ({variable_value});"`. -/
def render_kern_statement (masters_data : List (String × MasterData))
    (e : KernKey × List (String × Int)) : String :=
  "    " ++ (if e.1.2 then "enum " else "") ++ "pos " ++ e.1.1 ++ " (" ++
    format_variable_value masters_data e.2 ++ ");"

/-- Model of `VariableFeatureCombiner.combine_kern_features`: accumulate, format
each entry, and keep exactly the statements whose formatted variable
value is not the literal `"0"`. -/
def combine_kern_features (masters_data : List (String × MasterData)) : List String :=
  let all := accumulate_kern_pairs
    (masters_data.map (fun p => (p.1, parse_kern_pairs p.2.features)))
  all.foldl (fun stmts e =>
    if format_variable_value masters_data e.2 ≠ "0"
    then stmts ++ [render_kern_statement masters_data e]
    else stmts) []

/-! ### Other-Feature Collector -/

/-- Smallest offset `j` such that the input has `}` at `j` followed by
optional whitespace and the back-referenced tag plus `;` (the end of
the lazy group of `feature\s+(\w+)\s*\{.*?\}\s*\1;`). -/
def findFeatureEnd (tag : List Char) : List Char → Option Nat
  | [] => none
  | c :: cs =>
    if c == '}' && leadsWith (tag ++ [';']) (cs.dropWhile isPyWs) then some 0
    else (findFeatureEnd tag cs).map (· + 1)

/-- Match `feature\s+(\w+)\s*\{.*?\}\s*\1;` anchored at the head of `l`.
Returns `((tag, matchedText), restAfterMatch)`; `matchedText` is
`match.group(0)`, reassembled from the scanned parts. -/
def matchFeatureAt (l : List Char) : Option ((List Char × List Char) × List Char) :=
  if leadsWith ['f', 'e', 'a', 't', 'u', 'r', 'e'] l then
    let r := l.drop 7
    let ws1 := r.takeWhile isPyWs
    if ws1.isEmpty then none
    else
      let r1 := r.drop ws1.length
      let tag := r1.takeWhile isWordChar
      if tag.isEmpty then none
      else
        let r2 := r1.drop tag.length
        let ws2 := r2.takeWhile isPyWs
        match r2.drop ws2.length with
        | '{' :: r4 =>
          match findFeatureEnd tag r4 with
          | some j =>
            let r5 := r4.drop (j + 1)
            let ws3 := r5.takeWhile isPyWs
            some ((tag,
              ['f', 'e', 'a', 't', 'u', 'r', 'e'] ++ ws1 ++ tag ++ ws2 ++ '{' :: r4.take j
                ++ '}' :: ws3 ++ tag ++ [';']),
              (r5.drop ws3.length).drop (tag.length + 1))
          | none => none
        | _ => none
  else none

/-- The `re.finditer` loop for the feature-block pattern. -/
def findFeaturesGo : Nat → List Char → List (List Char × List Char)
  | 0, _ => []
  | _ + 1, [] => []
  | fuel + 1, c :: cs =>
    match matchFeatureAt (c :: cs) with
    | some (m, rest) => m :: findFeaturesGo fuel rest
    | none => findFeaturesGo fuel cs

/-- All matches of the feature-block pattern, in order. -/
def findFeatures (l : List Char) : List (List Char × List Char) :=
  findFeaturesGo l.length l

/-- The `other_features` Python `set` built by
`generate_variable_features`: the full text of every feature block
whose tag is not `kern`, across all masters.  CPython iterates a `str`
set in a hash-randomized order, so the embedding keeps only the set
itself; no iteration order is derivable from the program. -/
def collect_other_features (masters_data : List (String × MasterData)) : Finset String :=
  masters_data.foldl (fun s p =>
    (findFeatures p.2.features.data).foldl (fun s2 m =>
      if m.1 = ['k', 'e', 'r', 'n'] then s2 else insert (String.mk m.2) s2) s) ∅

/-! ### Output Generator -/

/-- The class-declaration lines of `generate_variable_features`
(`f"@{class_name} = [{glyph_list}];"` for each entry of
`self.combined_classes`, in dict iteration order). -/
def class_declaration_lines (masters_data : List (String × MasterData)) : List String :=
  (merge_classes masters_data).map
    (fun p => "@" ++ p.1 ++ " = [" ++ pyJoin " " p.2 ++ "];")

/-- Model of `VariableFeatureCombiner.generate_variable_features`.  The final
pass-through section iterates the `other_features` set; since CPython
gives that set no derivable order, the enumeration actually iterated is
taken as the argument `other_features_list` (see
`collect_other_features`). -/
def generate_variable_features (masters_data : List (String × MasterData))
    (other_features_list : List String) : String :=
  let header := ["# Variable features.fea generated from designspace masters",
    "# Combined from UFO sources in designspace", ""]
  let classSection :=
    if (merge_classes masters_data).isEmpty then []
    else "# Glyph class definitions" :: class_declaration_lines masters_data ++ [""]
  let ks := combine_kern_features masters_data
  let kernSection := if ks.isEmpty then [] else "feature kern \x7b" :: ks ++ ["\x7d kern;", ""]
  let otherSection := other_features_list.flatMap (fun f => [f, ""])
  pyJoin "\n" (header ++ classSection ++ kernSection ++ otherSection)

/-- Character-level form of one emitted class-declaration line
`"@" ++ name ++ " = [" ++ " ".join(glyphs) ++ "];"`, shaped for the
round-trip proof. -/
def renderClassLineC (e : List Char × List (List Char)) : List Char :=
  '@' :: (e.1 ++ ' ' :: '=' :: ' ' :: '[' :: (joinWith [' '] e.2 ++ ']' :: ';' :: []))

/-- The first-seen order of class names across masters (the order in
which `merge_classes` first encounters each name, scanning the masters
in sequence and each master's parse in match order).  Stated from the
spec for comparison with the iteration order of `combined_classes`. -/
def first_seen_class_names (masters_data : List (String × MasterData)) : List String :=
  masters_data.foldl (fun acc p =>
    (parse_glyph_classes p.2.features).foldl
      (fun a q => if q.1 ∈ a then a else a ++ [q.1]) acc) []

/-! ### Dictionary and set lemmas -/

theorem dictLookup_dictInsert {κ α : Type} [DecidableEq κ] (d : List (κ × α)) (k : κ) (v : α)
    (j : κ) : dictLookup (dictInsert d k v) j = if k = j then some v else dictLookup d j := by
  induction d with
  | nil => simp only [dictInsert, dictLookup]
  | cons p d ih =>
    by_cases hj : k = j
    · subst hj
      simp only [dictInsert, if_pos rfl]
      by_cases hp : p.1 = k
      · rw [if_pos hp]
        simp [dictLookup]
      · rw [if_neg hp]
        simp [dictLookup, hp, ih]
    · rw [if_neg hj]
      simp only [dictInsert]
      by_cases hp : p.1 = k
      · rw [if_pos hp]
        have hpj : ¬ p.1 = j := fun h => hj (hp.symm.trans h)
        simp [dictLookup, hj, hpj]
      · rw [if_neg hp]
        by_cases hq : p.1 = j
        · simp [dictLookup, hq]
        · simp [dictLookup, hq, ih, hj]

theorem dictLookup_some_mem {κ α : Type} [DecidableEq κ] {d : List (κ × α)} {k : κ} {v : α}
    (h : dictLookup d k = some v) : (k, v) ∈ d := by
  induction d with
  | nil => simp [dictLookup] at h
  | cons p d ih =>
    obtain ⟨p1, p2⟩ := p
    simp only [dictLookup] at h
    split at h
    · rename_i hp
      cases h
      subst hp
      exact List.mem_cons_self _ _
    · exact List.mem_cons_of_mem _ (ih h)

theorem dictLookup_map_values {κ α β : Type} [DecidableEq κ] (d : List (κ × α)) (f : α → β)
    (k : κ) : dictLookup (d.map (fun p => (p.1, f p.2))) k = (dictLookup d k).map f := by
  induction d with
  | nil => simp [dictLookup]
  | cons p d ih =>
    by_cases hp : p.1 = k
    · simp [dictLookup, hp]
    · simp [dictLookup, hp, ih]

theorem mem_pySetInsert {s : List String} {g x : String} :
    x ∈ pySetInsert s g ↔ x ∈ s ∨ x = g := by
  unfold pySetInsert
  split
  · rename_i hg
    constructor
    · exact Or.inl
    · rintro (h | rfl)
      · exact h
      · exact hg
  · simp

theorem nodup_pySetInsert {s : List String} {g : String} (h : s.Nodup) :
    (pySetInsert s g).Nodup := by
  unfold pySetInsert
  split
  · exact h
  · rename_i hg
    simpa [List.nodup_append, hg] using h

theorem mem_pySetUpdateList {s : List String} {gs : List String} {x : String} :
    x ∈ pySetUpdateList s gs ↔ x ∈ s ∨ x ∈ gs := by
  induction gs generalizing s with
  | nil => simp [pySetUpdateList]
  | cons g gs ih =>
    show x ∈ pySetUpdateList (pySetInsert s g) gs ↔ _
    rw [ih, mem_pySetInsert]
    simp [or_assoc]

theorem nodup_pySetUpdateList {s : List String} {gs : List String} (h : s.Nodup) :
    (pySetUpdateList s gs).Nodup := by
  induction gs generalizing s with
  | nil => exact h
  | cons g gs ih => exact ih (nodup_pySetInsert h)

theorem dictLookup_classUpdate (d : List (String × List String)) (n : String)
    (gs : List String) (j : String) :
    dictLookup (classUpdate d n gs) j =
      if n = j then some (pySetUpdateList ((dictLookup d n).getD []) gs)
      else dictLookup d j := by
  induction d with
  | nil => simp only [classUpdate, dictLookup, Option.getD_none]
  | cons p d ih =>
    by_cases hj : n = j
    · subst hj
      simp only [classUpdate, if_pos rfl]
      by_cases hp : p.1 = n
      · rw [if_pos hp]
        simp [dictLookup, hp]
      · rw [if_neg hp]
        simp [dictLookup, hp, ih]
    · rw [if_neg hj]
      simp only [classUpdate]
      by_cases hp : p.1 = n
      · rw [if_pos hp]
        have hpj : ¬ p.1 = j := fun h => hj (hp.symm.trans h)
        simp [dictLookup, hj, hpj, hp]
      · rw [if_neg hp]
        by_cases hq : p.1 = j
        · simp [dictLookup, hq]
        · simp [dictLookup, hq, ih, hj]

theorem keys_classUpdate (d : List (String × List String)) (n : String) (gs : List String) :
    (classUpdate d n gs).map Prod.fst =
      if n ∈ d.map Prod.fst then d.map Prod.fst else d.map Prod.fst ++ [n] := by
  induction d with
  | nil => simp [classUpdate]
  | cons p d ih =>
    simp only [classUpdate]
    by_cases hp : p.1 = n
    · simp [hp]
    · have hnp : ¬ n = p.1 := fun h => hp h.symm
      simp only [List.map_cons, hp, if_false, ih, List.mem_cons, hnp, false_or]
      split <;> rfl

theorem values_classUpdate {d : List (String × List String)} {n : String} {gs : List String}
    (h : ∀ q ∈ d, (q.2 : List String).Nodup) :
    ∀ q ∈ classUpdate d n gs, (q.2 : List String).Nodup := by
  induction d with
  | nil =>
    intro q hq
    simp only [classUpdate, List.mem_singleton] at hq
    subst hq
    exact nodup_pySetUpdateList List.nodup_nil
  | cons p d ih =>
    intro q hq
    simp only [classUpdate] at hq
    split at hq
    · rcases List.mem_cons.mp hq with rfl | hq2
      · exact nodup_pySetUpdateList (h p (List.mem_cons_self _ _))
      · exact h q (List.mem_cons_of_mem _ hq2)
    · rcases List.mem_cons.mp hq with rfl | hq2
      · exact h q (List.mem_cons_self _ _)
      · exact ih (fun r hr => h r (List.mem_cons_of_mem _ hr)) q hq2

/-! ### Merge characterization -/

theorem sortedStrings_perm (u : List String) : List.Perm (sortedStrings u) u :=
  List.perm_insertionSort _ u

theorem sortedStrings_sorted (u : List String) : (sortedStrings u).Sorted (· ≤ ·) :=
  List.sorted_insertionSort _ u

theorem sortedStrings_nodup {u : List String} (h : u.Nodup) : (sortedStrings u).Nodup :=
  (sortedStrings_perm u).nodup_iff.mpr h

theorem foldl_classUpdate_flat (parses : List (List (String × List String)))
    (acc : List (String × List String)) :
    parses.foldl (fun a classes => classes.foldl (fun b p => classUpdate b p.1 p.2) a) acc =
      (parses.flatMap id).foldl (fun b p => classUpdate b p.1 p.2) acc := by
  induction parses generalizing acc with
  | nil => rfl
  | cons c parses ih =>
    simp only [List.foldl_cons, List.flatMap_cons, List.foldl_append, id]
    exact ih _

theorem lookup_foldl_classUpdate_none (es : List (String × List String))
    (acc : List (String × List String)) (n : String) :
    dictLookup (es.foldl (fun b p => classUpdate b p.1 p.2) acc) n = none ↔
      dictLookup acc n = none ∧ ∀ gs, (n, gs) ∉ es := by
  induction es generalizing acc with
  | nil => simp
  | cons p es ih =>
    obtain ⟨p1, p2⟩ := p
    simp only [List.foldl_cons]
    rw [ih, dictLookup_classUpdate]
    by_cases hn : p1 = n
    · subst hn
      simp only [if_pos rfl]
      constructor
      · rintro ⟨h, -⟩
        cases h
      · rintro ⟨-, h2⟩
        exact absurd (List.mem_cons_self _ _) (h2 p2)
    · rw [if_neg hn]
      constructor
      · rintro ⟨h1, h2⟩
        refine ⟨h1, fun gs hg => ?_⟩
        rcases List.mem_cons.mp hg with he | he
        · injection he with e1 e2
          exact hn e1.symm
        · exact h2 gs he
      · rintro ⟨h1, h2⟩
        exact ⟨h1, fun gs hg => h2 gs (List.mem_cons_of_mem _ hg)⟩

theorem lookup_foldl_classUpdate_mem (es : List (String × List String))
    (acc : List (String × List String)) (n g : String) :
    (∃ s, dictLookup (es.foldl (fun b p => classUpdate b p.1 p.2) acc) n = some s ∧ g ∈ s) ↔
      (∃ s, dictLookup acc n = some s ∧ g ∈ s) ∨ ∃ gs, (n, gs) ∈ es ∧ g ∈ gs := by
  induction es generalizing acc with
  | nil => simp
  | cons p es ih =>
    obtain ⟨p1, p2⟩ := p
    simp only [List.foldl_cons]
    rw [ih]
    have hstep : (∃ s, dictLookup (classUpdate acc p1 p2) n = some s ∧ g ∈ s) ↔
        (∃ s, dictLookup acc n = some s ∧ g ∈ s) ∨ (p1 = n ∧ g ∈ p2) := by
      rw [dictLookup_classUpdate]
      by_cases hn : p1 = n
      · subst hn
        rw [if_pos rfl]
        constructor
        · rintro ⟨s, hs, hg⟩
          cases hs
          rcases mem_pySetUpdateList.mp hg with h | h
          · left
            cases hacc : dictLookup acc p1 with
            | none => rw [hacc] at h; cases h
            | some s0 => rw [hacc] at h; exact ⟨s0, rfl, h⟩
          · right
            exact ⟨rfl, h⟩
        · intro h
          refine ⟨_, rfl, ?_⟩
          rw [mem_pySetUpdateList]
          rcases h with ⟨s, hs, hg⟩ | ⟨-, hg⟩
          · left
            rw [hs]
            exact hg
          · right
            exact hg
      · rw [if_neg hn]
        constructor
        · exact fun h => Or.inl h
        · rintro (h | ⟨he, -⟩)
          · exact h
          · exact absurd he hn
    rw [hstep]
    constructor
    · rintro ((hA | ⟨hn, hg⟩) | ⟨gs, hmem, hg⟩)
      · exact Or.inl hA
      · exact Or.inr ⟨p2, by subst hn; exact List.mem_cons_self _ _, hg⟩
      · exact Or.inr ⟨gs, List.mem_cons_of_mem _ hmem, hg⟩
    · rintro (hA | ⟨gs, hmem, hg⟩)
      · exact Or.inl (Or.inl hA)
      · rcases List.mem_cons.mp hmem with he | he
        · injection he with e1 e2
          exact Or.inl (Or.inr ⟨e1.symm, e2 ▸ hg⟩)
        · exact Or.inr ⟨gs, he, hg⟩

theorem values_foldl_classUpdate {es : List (String × List String)}
    {acc : List (String × List String)}
    (h : ∀ q ∈ acc, (Prod.snd q : List String).Nodup) :
    ∀ q ∈ es.foldl (fun b (p : String × List String) => classUpdate b p.1 p.2) acc,
      (Prod.snd q : List String).Nodup := by
  induction es generalizing acc with
  | nil => exact h
  | cons p es ih => exact ih (values_classUpdate h)

theorem keys_foldl_classUpdate (es : List (String × List String))
    (acc : List (String × List String)) :
    (es.foldl (fun b p => classUpdate b p.1 p.2) acc).map Prod.fst =
      es.foldl (fun a p => if p.1 ∈ a then a else a ++ [p.1]) (acc.map Prod.fst) := by
  induction es generalizing acc with
  | nil => rfl
  | cons p es ih =>
    simp only [List.foldl_cons]
    rw [ih, keys_classUpdate]

theorem merge_parsed_classes_lookup (parses : List (List (String × List String)))
    (n : String) :
    dictLookup (merge_parsed_classes parses) n =
      (dictLookup ((parses.flatMap id).foldl (fun b p => classUpdate b p.1 p.2) []) n).map
        sortedStrings := by
  simp only [merge_parsed_classes]
  rw [dictLookup_map_values, foldl_classUpdate_flat]

theorem mergedClasses_mem (parses : List (List (String × List String))) (n g : String) :
    (∃ gs, dictLookup (merge_parsed_classes parses) n = some gs ∧ g ∈ gs) ↔
      ∃ p ∈ parses, ∃ gs, (n, gs) ∈ p ∧ g ∈ gs := by
  have base := lookup_foldl_classUpdate_mem (parses.flatMap id) [] n g
  simp only [dictLookup] at base
  simp only [false_and, exists_false, false_or, reduceCtorEq] at base
  rw [merge_parsed_classes_lookup]
  constructor
  · rintro ⟨gs, hgs, hg⟩
    obtain ⟨u, hu, rfl⟩ := Option.map_eq_some'.mp hgs
    have hgu : g ∈ u := (sortedStrings_perm u).mem_iff.mp hg
    obtain ⟨gs2, hmem, hg2⟩ := base.mp ⟨u, hu, hgu⟩
    obtain ⟨p, hp, hin⟩ := List.mem_flatMap.mp hmem
    exact ⟨p, hp, gs2, by simpa using hin, hg2⟩
  · rintro ⟨p, hp, gs, hin, hg⟩
    have hflat : (n, gs) ∈ parses.flatMap id := List.mem_flatMap.mpr ⟨p, hp, by simpa using hin⟩
    obtain ⟨u, hu, hgu⟩ := base.mpr ⟨gs, hflat, hg⟩
    exact ⟨sortedStrings u, by rw [hu]; rfl, (sortedStrings_perm u).mem_iff.mpr hgu⟩

theorem mergedClasses_mem_of_some {parses : List (List (String × List String))}
    {n : String} {gs : List String}
    (h : dictLookup (merge_parsed_classes parses) n = some gs) (g : String) :
    g ∈ gs ↔ ∃ p ∈ parses, ∃ u, (n, u) ∈ p ∧ g ∈ u := by
  rw [← mergedClasses_mem parses n g]
  constructor
  · intro hg
    exact ⟨gs, h, hg⟩
  · rintro ⟨gs0, h0, hg⟩
    rw [h] at h0
    cases h0
    exact hg

theorem mergedClasses_value_props {parses : List (List (String × List String))}
    {n : String} {gs : List String}
    (h : dictLookup (merge_parsed_classes parses) n = some gs) :
    gs.Sorted (· ≤ ·) ∧ gs.Nodup := by
  rw [merge_parsed_classes_lookup] at h
  obtain ⟨u, hu, rfl⟩ := Option.map_eq_some'.mp h
  have hnod : u.Nodup := by
    have hall := @values_foldl_classUpdate (parses.flatMap id) []
      (fun q hq => absurd hq (List.not_mem_nil q))
    exact hall (n, u) (dictLookup_some_mem hu)
  exact ⟨sortedStrings_sorted u, sortedStrings_nodup hnod⟩

theorem mergedClasses_lookup_none_iff (parses : List (List (String × List String)))
    (n : String) :
    dictLookup (merge_parsed_classes parses) n = none ↔
      ∀ p ∈ parses, ∀ gs, (n, gs) ∉ p := by
  rw [merge_parsed_classes_lookup, Option.map_eq_none', lookup_foldl_classUpdate_none]
  simp only [dictLookup, true_and]
  constructor
  · intro h p hp gs hin
    exact h gs (List.mem_flatMap.mpr ⟨p, hp, by simpa using hin⟩)
  · intro h gs hin
    obtain ⟨p, hp, hin2⟩ := List.mem_flatMap.mp hin
    exact h p hp gs (by simpa using hin2)

theorem mergedClasses_order_irrelevant {parses parses' : List (List (String × List String))}
    (h : parses.Perm parses') (n : String) :
    dictLookup (merge_parsed_classes parses) n =
      dictLookup (merge_parsed_classes parses') n := by
  cases h1 : dictLookup (merge_parsed_classes parses) n with
  | none =>
    have hd := (mergedClasses_lookup_none_iff parses n).mp h1
    exact ((mergedClasses_lookup_none_iff parses' n).mpr
      (fun p hp => hd p (h.mem_iff.mpr hp))).symm
  | some gs =>
    cases h2 : dictLookup (merge_parsed_classes parses') n with
    | none =>
      have hd := (mergedClasses_lookup_none_iff parses' n).mp h2
      have h0 : dictLookup (merge_parsed_classes parses) n = none :=
        (mergedClasses_lookup_none_iff parses n).mpr (fun p hp => hd p (h.mem_iff.mp hp))
      rw [h1] at h0
      cases h0
    | some gs' =>
      congr 1
      have hmem : ∀ g, g ∈ gs ↔ g ∈ gs' := by
        intro g
        rw [mergedClasses_mem_of_some h1 g, mergedClasses_mem_of_some h2 g]
        simp only [h.mem_iff]
      obtain ⟨hs1, hn1⟩ := mergedClasses_value_props h1
      obtain ⟨hs2, hn2⟩ := mergedClasses_value_props h2
      exact List.eq_of_perm_of_sorted
        ((List.perm_ext_iff_of_nodup hn1 hn2).mpr hmem) hs1 hs2

/-! ### Formatter and combiner lemmas -/

theorem string_data_append (s t : String) : (s ++ t).data = s.data ++ t.data := by
  cases s
  cases t
  rfl

theorem append_colon_ne_zero (a b : String) : a ++ ":" ++ b ≠ "0" := by
  intro h
  have hd := congrArg String.data h
  rw [string_data_append, string_data_append] at hd
  have hc : (":").data = [':'] := rfl
  have h0 : ("0").data = ['0'] := rfl
  rw [hc, h0] at hd
  rcases ha : a.data with _ | ⟨c, cs⟩
  · rw [ha] at hd
    simp only [List.nil_append, List.singleton_append] at hd
    injection hd with h1 h2
    exact absurd h1 (by decide)
  · rw [ha] at hd
    simp only [List.cons_append] at hd
    injection hd with h1 h2
    exact absurd h2 (by simp)

theorem format_foldl_fragments (masters_data : List (String × MasterData))
    (mvals : List (String × Int)) (acc : List String) :
    mvals.foldl (fun a mv =>
      match dictLookup masters_data mv.1 with
      | some md =>
        let coords := formatLocation md.location
        if coords.isEmpty then a
        else a ++ [pyJoin " " coords ++ ":" ++ toString mv.2]
      | none => a) acc = acc ++ mvals.flatMap (coordinate_fragments masters_data) := by
  induction mvals generalizing acc with
  | nil => simp
  | cons mv mvals ih =>
    simp only [List.foldl_cons, List.flatMap_cons]
    rw [ih]
    unfold coordinate_fragments
    cases h : dictLookup masters_data mv.1 with
    | none => simp
    | some md =>
      by_cases he : (formatLocation md.location).isEmpty
      · simp [he]
      · simp [he]

theorem format_variable_value_eq (masters_data : List (String × MasterData))
    (mvals : List (String × Int)) :
    format_variable_value masters_data mvals =
      if (mvals.flatMap (coordinate_fragments masters_data)).isEmpty then "0"
      else pyJoin " " (mvals.flatMap (coordinate_fragments masters_data)) := by
  unfold format_variable_value
  cases mvals with
  | nil => simp
  | cons mv mvals =>
    simp only [List.isEmpty_cons, Bool.false_eq_true, if_false]
    rw [format_foldl_fragments masters_data (mv :: mvals) []]
    simp

theorem coordinate_fragments_unregistered {masters_data : List (String × MasterData)}
    {mv : String × Int} (h : dictLookup masters_data mv.1 = none) :
    coordinate_fragments masters_data mv = [] := by
  unfold coordinate_fragments
  rw [h]

theorem coordinate_fragments_empty_location {masters_data : List (String × MasterData)}
    {mv : String × Int}
    (h : ∀ md, dictLookup masters_data mv.1 = some md → md.location = []) :
    coordinate_fragments masters_data mv = [] := by
  unfold coordinate_fragments
  cases hl : dictLookup masters_data mv.1 with
  | none => rfl
  | some md => simp [formatLocation, h md hl]

theorem format_variable_value_filter_registered
    (masters_data : List (String × MasterData)) (mvals : List (String × Int)) :
    format_variable_value masters_data
        (mvals.filter (fun mv => (dictLookup masters_data mv.1).isSome)) =
      format_variable_value masters_data mvals := by
  rw [format_variable_value_eq, format_variable_value_eq]
  have hfm : (mvals.filter (fun mv => (dictLookup masters_data mv.1).isSome)).flatMap
      (coordinate_fragments masters_data) =
      mvals.flatMap (coordinate_fragments masters_data) := by
    induction mvals with
    | nil => rfl
    | cons mv mvals ih =>
      cases h : dictLookup masters_data mv.1 with
      | none =>
        rw [List.flatMap_cons, coordinate_fragments_unregistered h]
        simp only [List.filter_cons, h, Option.isSome_none, Bool.false_eq_true, if_false]
        simpa using ih
      | some md =>
        simp only [List.filter_cons, h, Option.isSome_some, if_true, List.flatMap_cons]
        rw [ih]
  rw [hfm]

theorem format_variable_value_all_unregistered
    (masters_data : List (String × MasterData)) (mvals : List (String × Int))
    (h : ∀ mv ∈ mvals, dictLookup masters_data mv.1 = none) :
    format_variable_value masters_data mvals = "0" := by
  rw [format_variable_value_eq]
  have : mvals.flatMap (coordinate_fragments masters_data) = [] := by
    rw [List.flatMap_eq_nil_iff]
    exact fun mv hmv => coordinate_fragments_unregistered (h mv hmv)
  simp [this]

theorem format_variable_value_all_empty_locations
    (masters_data : List (String × MasterData)) (mvals : List (String × Int))
    (h : ∀ mv ∈ mvals, ∀ md, dictLookup masters_data mv.1 = some md → md.location = []) :
    format_variable_value masters_data mvals = "0" := by
  rw [format_variable_value_eq]
  have : mvals.flatMap (coordinate_fragments masters_data) = [] := by
    rw [List.flatMap_eq_nil_iff]
    exact fun mv hmv => coordinate_fragments_empty_location (h mv hmv)
  simp [this]

theorem format_variable_value_single_zero
    (masters_data : List (String × MasterData)) (m : String) (md : MasterData)
    (hm : dictLookup masters_data m = some md) (hl : md.location ≠ []) :
    format_variable_value masters_data [(m, 0)] =
        pyJoin " " (formatLocation md.location) ++ ":" ++ "0" ∧
      format_variable_value masters_data [(m, 0)] ≠ "0" := by
  have hco : ¬ (formatLocation md.location).isEmpty := by
    simp [formatLocation, hl]
  have hfmt : format_variable_value masters_data [(m, 0)] =
      pyJoin " " (formatLocation md.location) ++ ":" ++ "0" := by
    rw [format_variable_value_eq]
    simp only [List.flatMap_cons, List.flatMap_nil, List.append_nil]
    unfold coordinate_fragments
    simp only [hm]
    rw [if_neg hco]
    simp only [pyJoin]
    rfl
  exact ⟨hfmt, hfmt ▸ append_colon_ne_zero _ _⟩

theorem foldl_if_append {α β : Type} (P : α → Prop) [DecidablePred P] (f : α → β)
    (l : List α) (acc : List β) :
    l.foldl (fun st e => if P e then st ++ [f e] else st) acc =
      acc ++ (l.filter (fun e => decide (P e))).map f := by
  induction l generalizing acc with
  | nil => simp
  | cons a l ih =>
    by_cases h : P a
    · simp [List.filter_cons, h, ih]
    · simp [List.filter_cons, h, ih]

theorem combine_kern_features_eq (masters_data : List (String × MasterData)) :
    combine_kern_features masters_data =
      ((accumulate_kern_pairs
          (masters_data.map (fun p => (p.1, parse_kern_pairs p.2.features)))).filter
        (fun e => decide (format_variable_value masters_data e.2 ≠ "0"))).map
        (render_kern_statement masters_data) := by
  unfold combine_kern_features
  rw [foldl_if_append (fun e => format_variable_value masters_data e.2 ≠ "0")
    (render_kern_statement masters_data) _ []]
  simp

/-! ### Accumulator lemmas -/

theorem kern_inner_foldl_filter (m : String) (pairs : List KernPair) (acc : KernTable) :
    pairs.foldl (fun a pair =>
      match firstIntLiteral pair.value.data with
      | some v => kernUpdate a (pair.glyphs, pair.is_enum) m v
      | none => a) acc =
    (pairs.filter (fun kp => (firstIntLiteral kp.value.data).isSome)).foldl
      (fun a pair =>
        match firstIntLiteral pair.value.data with
        | some v => kernUpdate a (pair.glyphs, pair.is_enum) m v
        | none => a) acc := by
  induction pairs generalizing acc with
  | nil => rfl
  | cons kp pairs ih =>
    cases h : firstIntLiteral kp.value.data with
    | none => simp [List.filter_cons, h, ih]
    | some v => simp [List.filter_cons, h, ih]

theorem accumulate_kern_pairs_filter (parsed : List (String × List KernPair)) :
    accumulate_kern_pairs parsed =
      accumulate_kern_pairs (parsed.map
        (fun mp => (mp.1, mp.2.filter (fun kp => (firstIntLiteral kp.value.data).isSome)))) := by
  unfold accumulate_kern_pairs
  rw [List.foldl_map]
  have : ∀ (acc : KernTable) (parsed2 : List (String × List KernPair)),
      parsed2.foldl (fun acc mp =>
        mp.2.foldl (fun a pair =>
          match firstIntLiteral pair.value.data with
          | some v => kernUpdate a (pair.glyphs, pair.is_enum) mp.1 v
          | none => a) acc) acc =
      parsed2.foldl (fun acc mp =>
        (mp.2.filter (fun kp => (firstIntLiteral kp.value.data).isSome)).foldl
          (fun a pair =>
            match firstIntLiteral pair.value.data with
            | some v => kernUpdate a (pair.glyphs, pair.is_enum) mp.1 v
            | none => a) acc) acc := by
    intro acc parsed2
    induction parsed2 generalizing acc with
    | nil => rfl
    | cons mp parsed2 ih =>
      simp only [List.foldl_cons]
      rw [kern_inner_foldl_filter, ih]
  exact this [] parsed

theorem accumulate_kern_pairs_single (n : String) (p : KernPair) :
    accumulate_kern_pairs [(n, [p])] =
      match firstIntLiteral p.value.data with
      | some v => [((p.glyphs, p.is_enum), [(n, v)])]
      | none => [] := by
  cases h : firstIntLiteral p.value.data <;>
    simp [accumulate_kern_pairs, h, kernUpdate]

/-! ### Key-order lemmas -/

theorem keys_nested_classUpdate (parses : List (List (String × List String)))
    (acc : List (String × List String)) :
    ((parses.foldl (fun a cs => cs.foldl (fun b p => classUpdate b p.1 p.2) a) acc).map
        Prod.fst) =
      parses.foldl (fun a cs => cs.foldl (fun b q => if q.1 ∈ b then b else b ++ [q.1]) a)
        (acc.map Prod.fst) := by
  induction parses generalizing acc with
  | nil => rfl
  | cons cs parses ih =>
    simp only [List.foldl_cons]
    rw [ih, keys_foldl_classUpdate]

theorem merge_classes_keys (masters_data : List (String × MasterData)) :
    (merge_classes masters_data).map Prod.fst = first_seen_class_names masters_data := by
  unfold merge_classes merge_parsed_classes first_seen_class_names
  have hmapfst : ∀ (l : List (String × List String)),
      (l.map (fun p => (p.1, sortedStrings p.2))).map Prod.fst = l.map Prod.fst := by
    intro l
    induction l with
    | nil => rfl
    | cons p l ih => simp [ih]
  rw [hmapfst, keys_nested_classUpdate, List.foldl_map]
  rfl

/-! ### Generic character-list lemmas -/

theorem length_dropWhile_le (p : Char → Bool) (l : List Char) :
    (l.dropWhile p).length ≤ l.length := by
  induction l with
  | nil => simp
  | cons c cs ih =>
    rw [List.dropWhile_cons]
    split
    · exact Nat.le_succ_of_le ih
    · exact le_rfl

theorem takeWhile_all_append {α : Type} {p : α → Bool} {l : List α}
    (h : ∀ c ∈ l, p c = true) {c : α} (hc : p c = false) (t : List α) :
    ((l ++ c :: t).takeWhile p) = l := by
  induction l with
  | nil => simp [List.takeWhile_cons, hc]
  | cons a l ih =>
    rw [List.cons_append, List.takeWhile_cons, h a (List.mem_cons_self _ _)]
    rw [ih (fun x hx => h x (List.mem_cons_of_mem _ hx))]
    simp

theorem dropWhile_all_append {α : Type} {p : α → Bool} {l : List α}
    (h : ∀ c ∈ l, p c = true) {c : α} (hc : p c = false) (t : List α) :
    ((l ++ c :: t).dropWhile p) = c :: t := by
  induction l with
  | nil => simp [List.dropWhile_cons, hc]
  | cons a l ih =>
    rw [List.cons_append, List.dropWhile_cons, h a (List.mem_cons_self _ _)]
    simp only [if_true]
    exact ih (fun x hx => h x (List.mem_cons_of_mem _ hx))

theorem dropWhile_all_false {α : Type} {p : α → Bool} {l : List α}
    (h : ∀ c ∈ l, p c = false) : l.dropWhile p = l := by
  induction l with
  | nil => rfl
  | cons a l ih =>
    rw [List.dropWhile_cons, h a (List.mem_cons_self _ _)]
    simp

theorem leadsWith_append {pat l : List Char} (h : leadsWith pat l = true) (t : List Char) :
    leadsWith pat (l ++ t) = true := by
  induction pat generalizing l with
  | nil => simp [leadsWith]
  | cons p ps ih =>
    cases l with
    | nil => simp [leadsWith] at h
    | cons c cs =>
      simp only [leadsWith, Bool.and_eq_true, beq_iff_eq] at h
      simp only [List.cons_append, leadsWith, Bool.and_eq_true, beq_iff_eq]
      exact ⟨h.1, ih h.2⟩

theorem findSubFrom_none_tail {pat : List Char} {c : Char} {cs : List Char}
    (h : findSubFrom pat (c :: cs) = none) : findSubFrom pat cs = none := by
  unfold findSubFrom at h
  split at h
  · cases h
  · exact Option.map_eq_none'.mp h

theorem findSubFrom_head_false {pat : List Char} {c : Char} {cs : List Char}
    (h : findSubFrom pat (c :: cs) = none) : leadsWith pat (c :: cs) = false := by
  cases hx : leadsWith pat (c :: cs)
  · rfl
  · unfold findSubFrom at h
    rw [hx] at h
    simp at h

theorem findSubFrom_none_iff {pat : List Char} (hp : pat ≠ []) (l : List Char) :
    findSubFrom pat l = none ↔ ∀ i, leadsWith pat (l.drop i) = false := by
  induction l with
  | nil =>
    have hlw : leadsWith pat [] = false := by
      cases pat with
      | nil => exact absurd rfl hp
      | cons p ps => rfl
    simp [findSubFrom, hlw]
  | cons c cs ih =>
    constructor
    · intro h i
      cases i with
      | zero => exact findSubFrom_head_false h
      | succ i => exact (ih.mp (findSubFrom_none_tail h)) i
    · intro h
      have h0 : leadsWith pat (c :: cs) = false := h 0
      unfold findSubFrom
      rw [h0]
      simp only [Bool.false_eq_true, if_false, Option.map_eq_none']
      exact ih.mpr (fun i => h (i + 1))

theorem findSubFrom_none_subseg {pat : List Char} (hp : pat ≠ []) {a t b : List Char}
    (h : findSubFrom pat (a ++ (t ++ b)) = none) : findSubFrom pat t = none := by
  rw [findSubFrom_none_iff hp] at h ⊢
  intro i
  cases hlw : leadsWith pat (t.drop i)
  · rfl
  · exfalso
    have hne : t.drop i ≠ [] := by
      intro he
      rw [he] at hlw
      cases pat with
      | nil => exact hp rfl
      | cons p ps => simp [leadsWith] at hlw
    have hi : i ≤ t.length := by
      by_contra hgt
      exact hne (List.drop_eq_nil_of_le (by omega))
    have hdrop : (a ++ (t ++ b)).drop (a.length + i) = t.drop i ++ b := by
      rw [List.drop_append, List.drop_append_of_le_length hi]
    have := h (a.length + i)
    rw [hdrop] at this
    rw [leadsWith_append hlw b] at this
    cases this

theorem findSubFrom_take {pat : List Char} (hp : pat ≠ []) :
    ∀ (l : List Char) (j : Nat), findSubFrom pat l = some j →
      findSubFrom pat (l.take j) = none := by
  intro l
  induction l with
  | nil =>
    intro j h
    unfold findSubFrom at h
    split at h
    · rename_i hl
      cases pat with
      | nil => exact absurd rfl hp
      | cons p ps => simp [leadsWith] at hl
    · cases h
  | cons c cs ih =>
    intro j h
    unfold findSubFrom at h
    split at h
    · cases h
      cases pat with
      | nil => exact absurd rfl hp
      | cons p ps => simp [findSubFrom, leadsWith]
    · rename_i hlw
      obtain ⟨j0, hj0, rfl⟩ := Option.map_eq_some'.mp h
      rw [List.take_succ_cons]
      have hfalse : leadsWith pat (c :: cs.take j0) = false := by
        cases hx : leadsWith pat (c :: cs.take j0)
        · rfl
        · exfalso
          have hap := leadsWith_append hx (cs.drop j0)
          rw [List.cons_append, List.take_append_drop] at hap
          exact hlw hap
      unfold findSubFrom
      rw [hfalse]
      simp only [Bool.false_eq_true, if_false, Option.map_eq_none']
      exact ih j0 hj0

/-! ### Tokenizer lemmas -/

theorem wsTokensAux_subseg : ∀ (l cur : List Char) (t : List Char),
    t ∈ wsTokensAux cur l → ∃ a b, cur.reverse ++ l = a ++ (t ++ b) := by
  intro l
  induction l with
  | nil =>
    intro cur t ht
    unfold wsTokensAux at ht
    split at ht
    · cases ht
    · rcases List.mem_singleton.mp ht with rfl
      exact ⟨[], [], by simp⟩
  | cons c cs ih =>
    intro cur t ht
    unfold wsTokensAux at ht
    split at ht
    · split at ht
      · rename_i hcur
        obtain ⟨a, b, hab⟩ := ih [] t ht
        simp only [List.reverse_nil, List.nil_append] at hab
        refine ⟨cur.reverse ++ [c] ++ a, b, ?_⟩
        rw [List.append_assoc, List.append_assoc]
        simp [hab]
      · rcases List.mem_cons.mp ht with rfl | ht2
        · exact ⟨[], c :: cs, by simp⟩
        · obtain ⟨a, b, hab⟩ := ih [] t ht2
          simp only [List.reverse_nil, List.nil_append] at hab
          refine ⟨cur.reverse ++ [c] ++ a, b, ?_⟩
          rw [List.append_assoc, List.append_assoc]
          simp [hab]
    · obtain ⟨a, b, hab⟩ := ih (c :: cur) t ht
      refine ⟨a, b, ?_⟩
      rw [← hab]
      simp

theorem wsTokensAux_no_ws : ∀ (l cur : List Char), (∀ c ∈ cur, isPyWs c = false) →
    ∀ t ∈ wsTokensAux cur l, ∀ c ∈ t, isPyWs c = false := by
  intro l
  induction l with
  | nil =>
    intro cur hcur t ht
    unfold wsTokensAux at ht
    split at ht
    · cases ht
    · rcases List.mem_singleton.mp ht with rfl
      intro c hc
      exact hcur c (List.mem_reverse.mp hc)
  | cons c cs ih =>
    intro cur hcur t ht
    unfold wsTokensAux at ht
    split at ht
    · split at ht
      · exact ih [] (by intro x hx; cases hx) t ht
      · rcases List.mem_cons.mp ht with rfl | ht2
        · intro x hx
          exact hcur x (List.mem_reverse.mp hx)
        · exact ih [] (by intro x hx; cases hx) t ht2
    · rename_i hc
      have hcf : isPyWs c = false := by
        cases hx : isPyWs c
        · rfl
        · exact absurd hx hc
      refine ih (c :: cur) ?_ t ht
      intro x hx
      rcases List.mem_cons.mp hx with rfl | hx2
      · exact hcf
      · exact hcur x hx2

theorem wsTokensAux_ne_nil : ∀ (l cur : List Char), ∀ t ∈ wsTokensAux cur l, t ≠ [] := by
  intro l
  induction l with
  | nil =>
    intro cur t ht
    unfold wsTokensAux at ht
    split at ht
    · cases ht
    · rename_i hcur
      rcases List.mem_singleton.mp ht with rfl
      intro he
      rw [List.reverse_eq_nil_iff] at he
      rw [he] at hcur
      simp at hcur
  | cons c cs ih =>
    intro cur t ht
    unfold wsTokensAux at ht
    split at ht
    · split at ht
      · exact ih [] t ht
      · rename_i hcur
        rcases List.mem_cons.mp ht with rfl | ht2
        · intro he
          rw [List.reverse_eq_nil_iff] at he
          rw [he] at hcur
          simp at hcur
        · exact ih [] t ht2
    · exact ih (c :: cur) t ht

theorem wsTokensAux_all_non_ws_append (y : List Char) (hy : ∀ c ∈ y, isPyWs c = false) :
    ∀ (rest cur : List Char), wsTokensAux cur (y ++ rest) = wsTokensAux (y.reverse ++ cur) rest := by
  induction y with
  | nil => intro rest cur; simp
  | cons c y ih =>
    intro rest cur
    have hc : isPyWs c = false := hy c (List.mem_cons_self _ _)
    have hstep : wsTokensAux cur (c :: (y ++ rest)) = wsTokensAux (c :: cur) (y ++ rest) := by
      conv_lhs => rw [wsTokensAux.eq_def]
      dsimp only
      rw [hc]
      simp
    show wsTokensAux cur (c :: (y ++ rest)) = _
    rw [hstep, ih (fun x hx => hy x (List.mem_cons_of_mem _ hx)) rest (c :: cur)]
    congr 1
    simp

theorem wsTokens_join (gs : List (List Char)) (hne : ∀ g ∈ gs, g ≠ [])
    (hws : ∀ g ∈ gs, ∀ c ∈ g, isPyWs c = false) :
    wsTokens (joinWith [' '] gs) = gs := by
  induction gs with
  | nil => rfl
  | cons x gs ih =>
    cases gs with
    | nil =>
      show wsTokensAux [] (joinWith [' '] [x]) = [x]
      have hx : joinWith [' '] [x] = x ++ [] := by simp [joinWith]
      rw [hx, wsTokensAux_all_non_ws_append x (hws x (List.mem_cons_self _ _)) [] []]
      unfold wsTokensAux
      have : (x.reverse ++ []).isEmpty = false := by
        simp [List.isEmpty_iff, hne x (List.mem_cons_self _ _)]
      rw [this]
      simp
    | cons y gs2 =>
      show wsTokensAux [] (joinWith [' '] (x :: y :: gs2)) = x :: y :: gs2
      have hx : joinWith [' '] (x :: y :: gs2) = x ++ (' ' :: joinWith [' '] (y :: gs2)) := by
        simp [joinWith]
      rw [hx, wsTokensAux_all_non_ws_append x (hws x (List.mem_cons_self _ _)) _ []]
      unfold wsTokensAux
      have hwsp : isPyWs ' ' = true := by decide
      rw [hwsp]
      simp only [if_true]
      have : (x.reverse ++ []).isEmpty = false := by
        simp [List.isEmpty_iff, hne x (List.mem_cons_self _ _)]
      rw [this]
      simp only [Bool.false_eq_true, if_false]
      have hrev : (x.reverse ++ []).reverse = x := by simp
      rw [hrev]
      congr 1
      exact ih (fun g hg => hne g (List.mem_cons_of_mem _ hg))
        (fun g hg => hws g (List.mem_cons_of_mem _ hg))

theorem pyStrip_no_ws {t : List Char} (h : ∀ c ∈ t, isPyWs c = false) : pyStrip t = t := by
  unfold pyStrip
  rw [dropWhile_all_false h,
    dropWhile_all_false (fun c hc => h c (List.mem_reverse.mp hc)), List.reverse_reverse]

theorem map_pyStrip_id : ∀ (gs : List (List Char)),
    (∀ g ∈ gs, ∀ c ∈ g, isPyWs c = false) → gs.map pyStrip = gs := by
  intro gs
  induction gs with
  | nil => intro h; rfl
  | cons g gs ih =>
    intro h
    rw [List.map_cons, pyStrip_no_ws (h g (List.mem_cons_self _ _)),
      ih (fun x hx => h x (List.mem_cons_of_mem _ hx))]

theorem glyphsOfContent_join (gs : List (List Char)) (hne : ∀ g ∈ gs, g ≠ [])
    (hws : ∀ g ∈ gs, ∀ c ∈ g, isPyWs c = false) :
    glyphsOfContent (joinWith [' '] gs) = gs := by
  unfold glyphsOfContent
  rw [wsTokens_join gs hne hws, map_pyStrip_id gs hws, List.filter_eq_self.mpr]
  intro g hg
  simp [List.isEmpty_iff, hne g hg]

theorem glyphsOfContent_props {content t : List Char} (ht : t ∈ glyphsOfContent content) :
    t ≠ [] ∧ (∀ c ∈ t, isPyWs c = false) ∧
      (findSubFrom srb content = none → findSubFrom srb t = none) := by
  unfold glyphsOfContent at ht
  obtain ⟨ht1, ht2⟩ := List.mem_filter.mp ht
  obtain ⟨t0, ht0, rfl⟩ := List.mem_map.mp ht1
  have hws0 : ∀ c ∈ t0, isPyWs c = false :=
    wsTokensAux_no_ws content [] (by intro x hx; cases hx) t0 ht0
  have hstrip : pyStrip t0 = t0 := pyStrip_no_ws hws0
  rw [hstrip] at ht2 ⊢
  refine ⟨?_, hws0, ?_⟩
  · intro he
    rw [he] at ht2
    simp at ht2
  · intro hfree
    obtain ⟨a, b, hab⟩ := wsTokensAux_subseg content [] t0 ht0
    simp only [List.reverse_nil, List.nil_append] at hab
    rw [hab] at hfree
    exact findSubFrom_none_subseg (by decide) hfree

/-! ### Class-match lemmas -/

theorem matchClassAt_rest_lt {l : List Char} {m : List Char × List Char} {rest : List Char}
    (h : matchClassAt l = some (m, rest)) : rest.length < l.length := by
  unfold matchClassAt at h
  split at h
  · rename_i r
    split at h
    · cases h
    · split at h
      · rename_i r2 heq2
        split at h
        · rename_i r3 heq3
          split at h
          · rename_i j heq4
            injection h with h
            injection h with hm hrest
            have h2 : r2.length < r.length := by
              have hle : ((r.drop (r.takeWhile isNameChar).length).dropWhile isPyWs).length ≤
                  r.length := by
                calc ((r.drop (r.takeWhile isNameChar).length).dropWhile isPyWs).length
                    ≤ (r.drop (r.takeWhile isNameChar).length).length :=
                      length_dropWhile_le _ _
                  _ ≤ r.length := by rw [List.length_drop]; omega
              rw [heq2] at hle
              simp at hle
              omega
            have h3 : r3.length < r2.length := by
              have hle := length_dropWhile_le isPyWs r2
              rw [heq3] at hle
              simp at hle
              omega
            have h4 : rest.length ≤ r3.length := by
              rw [← hrest, List.length_drop]
              omega
            simp only [List.length_cons]
            omega
          · cases h
        · cases h
      · cases h
  · cases h

theorem matchClassAt_inv {l : List Char} {m : List Char × List Char} {rest : List Char}
    (h : matchClassAt l = some (m, rest)) :
    m.1 ≠ [] ∧ (∀ c ∈ m.1, isNameChar c = true) ∧ findSubFrom srb m.2 = none := by
  unfold matchClassAt at h
  split at h
  · rename_i r
    split at h
    · cases h
    · rename_i hne
      split at h
      · split at h
        · split at h
          · rename_i j heq4
            injection h with h
            injection h with hm hrest
            subst hm
            dsimp only
            refine ⟨?_, ?_, ?_⟩
            · intro he
              rw [he] at hne
              simp at hne
            · intro c hc
              exact List.mem_takeWhile_imp hc
            · exact findSubFrom_take (by decide) _ j heq4
          · cases h
        · cases h
      · cases h
  · cases h

theorem findClassesGo_congr : ∀ (f1 f2 : Nat) (l : List Char), l.length ≤ f1 → l.length ≤ f2 →
    findClassesGo f1 l = findClassesGo f2 l := by
  intro f1
  induction f1 with
  | zero =>
    intro f2 l h1 h2
    have : l = [] := List.length_eq_zero.mp (Nat.le_zero.mp h1)
    subst this
    cases f2 <;> rfl
  | succ f1 ih =>
    intro f2 l h1 h2
    cases l with
    | nil => cases f2 <;> rfl
    | cons c cs =>
      cases f2 with
      | zero => simp at h2
      | succ f2 =>
        show (match matchClassAt (c :: cs) with
          | some (m, rest) => m :: findClassesGo f1 rest
          | none => findClassesGo f1 cs) =
          (match matchClassAt (c :: cs) with
          | some (m, rest) => m :: findClassesGo f2 rest
          | none => findClassesGo f2 cs)
        cases hm : matchClassAt (c :: cs) with
        | some mr =>
          obtain ⟨m, rest⟩ := mr
          have hlt := matchClassAt_rest_lt hm
          simp only [List.length_cons] at hlt h1 h2
          dsimp only
          congr 1
          exact ih f2 rest (by omega) (by omega)
        | none =>
          simp only [List.length_cons] at h1 h2
          dsimp only
          exact ih f2 cs (by omega) (by omega)

theorem findClasses_cons (c : Char) (cs : List Char) :
    findClasses (c :: cs) =
      match matchClassAt (c :: cs) with
      | some (m, rest) => m :: findClasses rest
      | none => findClasses cs := by
  show findClassesGo (cs.length + 1) (c :: cs) = _
  have hstep : findClassesGo (cs.length + 1) (c :: cs) =
      match matchClassAt (c :: cs) with
      | some (m, rest) => m :: findClassesGo cs.length rest
      | none => findClassesGo cs.length cs := rfl
  rw [hstep]
  cases hm : matchClassAt (c :: cs) with
  | none => rfl
  | some mr =>
    obtain ⟨m, rest⟩ := mr
    have hlt := matchClassAt_rest_lt hm
    simp only [List.length_cons] at hlt
    simp only []
    congr 1
    exact findClassesGo_congr cs.length rest.length rest (by omega) le_rfl

theorem findClasses_skip {c : Char} (hc : ¬ c = '@') (cs : List Char) :
    findClasses (c :: cs) = findClasses cs := by
  rw [findClasses_cons]
  have hm : matchClassAt (c :: cs) = none := by
    unfold matchClassAt
    split
    · rename_i r heq
      injection heq with he1 he2
      exact absurd he1 hc
    · rfl
  rw [hm]

theorem findClasses_from_match_aux : ∀ (k : Nat) (l : List Char), l.length ≤ k →
    ∀ m ∈ findClasses l, ∃ l0 rest, matchClassAt l0 = some (m, rest) := by
  intro k
  induction k with
  | zero =>
    intro l hl m hm
    have : l = [] := List.length_eq_zero.mp (Nat.le_zero.mp hl)
    subst this
    cases hm
  | succ k ih =>
    intro l hl m hm
    cases l with
    | nil => cases hm
    | cons c cs =>
      rw [findClasses_cons] at hm
      simp only [List.length_cons] at hl
      cases hmc : matchClassAt (c :: cs) with
      | some mr =>
        rw [hmc] at hm
        obtain ⟨m0, rest⟩ := mr
        rcases List.mem_cons.mp hm with rfl | hm2
        · exact ⟨c :: cs, rest, hmc⟩
        · have hlt := matchClassAt_rest_lt hmc
          simp only [List.length_cons] at hlt
          exact ih rest (by omega) m hm2
      | none =>
        rw [hmc] at hm
        exact ih cs (by omega) m hm

theorem findClasses_from_match {l : List Char} :
    ∀ m ∈ findClasses l, ∃ l0 rest, matchClassAt l0 = some (m, rest) :=
  findClasses_from_match_aux l.length l le_rfl

/-! ### Dictionary-fold membership lemmas -/

theorem mem_dictInsert {κ α : Type} [DecidableEq κ] :
    ∀ {d : List (κ × α)} {k : κ} {v : α} (q : κ × α),
      q ∈ dictInsert d k v → q ∈ d ∨ q = (k, v) := by
  intro d
  induction d with
  | nil =>
    intro k v q hq
    rcases List.mem_singleton.mp hq with rfl
    exact Or.inr rfl
  | cons p d ih =>
    intro k v q hq
    unfold dictInsert at hq
    split at hq
    · rcases List.mem_cons.mp hq with rfl | hq2
      · exact Or.inr rfl
      · exact Or.inl (List.mem_cons_of_mem _ hq2)
    · rcases List.mem_cons.mp hq with rfl | hq2
      · exact Or.inl (List.mem_cons_self _ _)
      · rcases ih q hq2 with h | h
        · exact Or.inl (List.mem_cons_of_mem _ h)
        · exact Or.inr h

theorem mem_foldl_dictInsert {κ α β : Type} [DecidableEq κ] (f : β → κ × α)
    (P : κ × α → Prop) :
    ∀ (ms : List β) (acc : List (κ × α)), (∀ q ∈ acc, P q) → (∀ m ∈ ms, P (f m)) →
      ∀ q ∈ ms.foldl (fun a m => dictInsert a (f m).1 (f m).2) acc, P q := by
  intro ms
  induction ms with
  | nil => intro acc hacc _ q hq; exact hacc q hq
  | cons m ms ih =>
    intro acc hacc hms q hq
    refine ih (dictInsert acc (f m).1 (f m).2) ?_
      (fun m2 hm2 => hms m2 (List.mem_cons_of_mem _ hm2)) q hq
    intro q2 hq2
    rcases mem_dictInsert q2 hq2 with h | h
    · exact hacc q2 h
    · rw [h, Prod.mk.eta]
      exact hms m (List.mem_cons_self _ _)

theorem dictInsert_fresh {κ α : Type} [DecidableEq κ] :
    ∀ {d : List (κ × α)} {k : κ} {v : α}, k ∉ d.map Prod.fst →
      dictInsert d k v = d ++ [(k, v)] := by
  intro d
  induction d with
  | nil => intro k v _; rfl
  | cons p d ih =>
    intro k v h
    simp only [List.map_cons, List.mem_cons] at h
    push_neg at h
    unfold dictInsert
    rw [if_neg (fun he => h.1 he.symm), ih h.2]
    rfl

theorem foldl_dictInsert_eq_append {κ α β : Type} [DecidableEq κ] (f : β → κ × α) :
    ∀ (ms : List β) (acc : List (κ × α)),
      (∀ m ∈ ms, (f m).1 ∉ acc.map Prod.fst) → ((ms.map f).map Prod.fst).Nodup →
      ms.foldl (fun a m => dictInsert a (f m).1 (f m).2) acc = acc ++ ms.map f := by
  intro ms
  induction ms with
  | nil => intro acc _ _; simp
  | cons m ms ih =>
    intro acc hfresh hnodup
    simp only [List.foldl_cons]
    rw [dictInsert_fresh (hfresh m (List.mem_cons_self _ _))]
    simp only [Prod.mk.eta]
    simp only [List.map_cons, List.nodup_cons] at hnodup
    have hfresh2 : ∀ m2 ∈ ms, (f m2).1 ∉ (acc ++ [f m]).map Prod.fst := by
      intro m2 hm2
      rw [List.map_append]
      intro hmem
      rcases List.mem_append.mp hmem with h | h
      · exact hfresh m2 (List.mem_cons_of_mem _ hm2) h
      · have he : (f m2).1 = (f m).1 := by simpa using h
        exact hnodup.1 (he ▸ List.mem_map.mpr ⟨f m2, List.mem_map.mpr ⟨m2, hm2, rfl⟩, rfl⟩)
    rw [ih (acc ++ [f m]) hfresh2 hnodup.2]
    simp

/-! ### Round-trip lemmas: parsing the rendered class declarations -/

theorem string_mk_data (s : String) : String.mk s.data = s := by
  cases s
  rfl

theorem string_data_injective : Function.Injective String.data := by
  intro a b hab
  rw [← string_mk_data a, ← string_mk_data b, hab]

theorem findSubFrom_srb_append : ∀ (l1 t : List Char), findSubFrom srb l1 = none →
    findSubFrom srb (l1 ++ ']' :: ';' :: t) = some l1.length := by
  intro l1
  induction l1 with
  | nil => intro t _; rfl
  | cons c cs ih =>
    intro t hfree
    have hhead : leadsWith srb ((c :: cs) ++ ']' :: ';' :: t) = false := by
      cases hx : leadsWith srb ((c :: cs) ++ ']' :: ';' :: t)
      · rfl
      · exfalso
        simp only [srb, List.cons_append, leadsWith, Bool.and_eq_true, beq_iff_eq] at hx
        obtain ⟨hc, hrest⟩ := hx
        subst hc
        cases cs with
        | nil => simp [leadsWith] at hrest
        | cons d ds =>
          simp only [List.cons_append, leadsWith, Bool.and_eq_true, beq_iff_eq] at hrest
          obtain ⟨hd, -⟩ := hrest
          subst hd
          have hf := findSubFrom_head_false hfree
          simp [srb, leadsWith] at hf
    show findSubFrom srb ((c :: cs) ++ ']' :: ';' :: t) = some (c :: cs).length
    rw [List.cons_append]
    unfold findSubFrom
    rw [List.cons_append] at hhead
    rw [hhead]
    simp only [Bool.false_eq_true, if_false]
    rw [ih t (findSubFrom_none_tail hfree)]
    simp

theorem findSubFrom_append_none : ∀ {x z : List Char}, findSubFrom srb x = none →
    findSubFrom srb z = none → (∀ d, z.head? = some d → ¬ d = ';') →
    findSubFrom srb (x ++ z) = none := by
  intro x
  induction x with
  | nil => intro z _ hz _; simpa using hz
  | cons c cs ih =>
    intro z hx hz hhead
    rw [List.cons_append]
    have hh : leadsWith srb (c :: (cs ++ z)) = false := by
      cases hlw : leadsWith srb (c :: (cs ++ z))
      · rfl
      · exfalso
        simp only [srb, leadsWith, Bool.and_eq_true, beq_iff_eq] at hlw
        obtain ⟨hc, hrest⟩ := hlw
        subst hc
        cases cs with
        | nil =>
          simp only [List.nil_append] at hrest
          cases z with
          | nil => simp [leadsWith] at hrest
          | cons d ds =>
            simp only [leadsWith, Bool.and_eq_true, beq_iff_eq] at hrest
            exact hhead d rfl hrest.1.symm
        | cons d ds =>
          simp only [List.cons_append, leadsWith, Bool.and_eq_true, beq_iff_eq] at hrest
          obtain ⟨hd, -⟩ := hrest
          subst hd
          have hf := findSubFrom_head_false hx
          simp [srb, leadsWith] at hf
    unfold findSubFrom
    rw [hh]
    simp only [Bool.false_eq_true, if_false, Option.map_eq_none']
    exact ih (findSubFrom_none_tail hx) hz hhead

theorem findSubFrom_srb_cons_space {j : List Char} (hj : findSubFrom srb j = none) :
    findSubFrom srb (' ' :: j) = none := by
  unfold findSubFrom
  have : leadsWith srb (' ' :: j) = false := by
    simp [srb, leadsWith]
  rw [this]
  simp [hj]

theorem joinWith_space_srb_free : ∀ (gs : List (List Char)),
    (∀ g ∈ gs, findSubFrom srb g = none) →
    findSubFrom srb (joinWith [' '] gs) = none := by
  intro gs
  induction gs with
  | nil => intro _; rfl
  | cons x gs ih =>
    intro h
    cases gs with
    | nil => exact h x (List.mem_cons_self _ _)
    | cons y gs2 =>
      have hx : joinWith [' '] (x :: y :: gs2) = x ++ (' ' :: joinWith [' '] (y :: gs2)) := by
        show x ++ [' '] ++ joinWith [' '] (y :: gs2) = _
        simp
      rw [hx]
      refine findSubFrom_append_none (h x (List.mem_cons_self _ _)) ?_ ?_
      · exact findSubFrom_srb_cons_space (ih (fun g hg => h g (List.mem_cons_of_mem _ hg)))
      · intro d hd
        injection hd with hd
        subst hd
        decide

theorem matchClassAt_eq_body (r : List Char) :
    matchClassAt ('@' :: r) =
      if (r.takeWhile isNameChar).isEmpty then none
      else
        match (r.drop (r.takeWhile isNameChar).length).dropWhile isPyWs with
        | '=' :: r2 =>
          match r2.dropWhile isPyWs with
          | '[' :: r3 =>
            match findSubFrom srb r3 with
            | some j => some ((r.takeWhile isNameChar, r3.take j), r3.drop (j + 2))
            | none => none
          | _ => none
        | _ => none := rfl

theorem matchClassAt_render (n : List Char) (gs : List (List Char)) (tail : List Char)
    (hn : n ≠ []) (hnc : ∀ c ∈ n, isNameChar c = true)
    (hfree : findSubFrom srb (joinWith [' '] gs) = none) :
    matchClassAt ('@' :: (n ++ ' ' :: '=' :: ' ' :: '[' ::
        (joinWith [' '] gs ++ ']' :: ';' :: tail))) =
      some ((n, joinWith [' '] gs), tail) := by
  have hsp : isNameChar ' ' = false := by decide
  rw [matchClassAt_eq_body]
  rw [takeWhile_all_append hnc hsp]
  rw [show n.isEmpty = false by simp [List.isEmpty_iff, hn]]
  simp only [Bool.false_eq_true, if_false]
  rw [List.drop_left]
  rw [show List.dropWhile isPyWs (' ' :: '=' :: ' ' :: '[' ::
      (joinWith [' '] gs ++ ']' :: ';' :: tail)) =
      '=' :: ' ' :: '[' :: (joinWith [' '] gs ++ ']' :: ';' :: tail) from by
    simp [List.dropWhile, isPyWs]]
  show (match (' ' :: '[' :: (joinWith [' '] gs ++ ']' :: ';' :: tail)).dropWhile isPyWs with
    | '[' :: r3 =>
      match findSubFrom srb r3 with
      | some j => some ((n, r3.take j), r3.drop (j + 2))
      | none => none
    | _ => none) = some ((n, joinWith [' '] gs), tail)
  rw [show (' ' :: '[' :: (joinWith [' '] gs ++ ']' :: ';' :: tail)).dropWhile isPyWs =
      '[' :: (joinWith [' '] gs ++ ']' :: ';' :: tail) from by
    simp [List.dropWhile, isPyWs]]
  show (match findSubFrom srb (joinWith [' '] gs ++ ']' :: ';' :: tail) with
    | some j => some ((n, (joinWith [' '] gs ++ ']' :: ';' :: tail).take j),
        (joinWith [' '] gs ++ ']' :: ';' :: tail).drop (j + 2))
    | none => none) = some ((n, joinWith [' '] gs), tail)
  rw [findSubFrom_srb_append (joinWith [' '] gs) tail hfree]
  show some ((n, (joinWith [' '] gs ++ ']' :: ';' :: tail).take (joinWith [' '] gs).length),
      (joinWith [' '] gs ++ ']' :: ';' :: tail).drop ((joinWith [' '] gs).length + 2)) = _
  rw [List.take_left]
  have hdrop : (joinWith [' '] gs ++ ']' :: ';' :: tail).drop
      ((joinWith [' '] gs).length + 2) = tail := by
    have h1 : joinWith [' '] gs ++ ']' :: ';' :: tail =
        (joinWith [' '] gs ++ [']', ';']) ++ tail := by simp
    have h2 : (joinWith [' '] gs).length + 2 = (joinWith [' '] gs ++ [']', ';']).length := by
      simp
    rw [h1, h2, List.drop_left]
  rw [hdrop]

theorem findClasses_render : ∀ (entries : List (List Char × List (List Char))),
    (∀ e ∈ entries, e.1 ≠ [] ∧ ∀ c ∈ e.1, isNameChar c = true) →
    (∀ e ∈ entries, findSubFrom srb (joinWith [' '] e.2) = none) →
    findClasses (joinWith ['\n'] (entries.map renderClassLineC)) =
      entries.map (fun e => (e.1, joinWith [' '] e.2)) := by
  intro entries
  induction entries with
  | nil => intro _ _; rfl
  | cons e entries ih =>
    intro hn hg
    cases entries with
    | nil =>
      show findClasses (renderClassLineC e) = [(e.1, joinWith [' '] e.2)]
      rw [show renderClassLineC e = '@' :: (e.1 ++ ' ' :: '=' :: ' ' :: '[' ::
          (joinWith [' '] e.2 ++ ']' :: ';' :: ([] : List Char))) from rfl]
      rw [findClasses_cons]
      rw [matchClassAt_render e.1 e.2 [] (hn e (List.mem_cons_self _ _)).1
        (hn e (List.mem_cons_self _ _)).2 (hg e (List.mem_cons_self _ _))]
      rfl
    | cons e2 rest2 =>
      have hjoin : joinWith ['\n'] ((e :: e2 :: rest2).map renderClassLineC) =
          renderClassLineC e ++ '\n' :: joinWith ['\n'] ((e2 :: rest2).map renderClassLineC) := by
        show renderClassLineC e ++ ['\n'] ++
          joinWith ['\n'] ((e2 :: rest2).map renderClassLineC) = _
        simp
      rw [hjoin]
      have hshape : renderClassLineC e ++
          '\n' :: joinWith ['\n'] ((e2 :: rest2).map renderClassLineC) =
          '@' :: (e.1 ++ ' ' :: '=' :: ' ' :: '[' :: (joinWith [' '] e.2 ++ ']' :: ';' ::
            ('\n' :: joinWith ['\n'] ((e2 :: rest2).map renderClassLineC)))) := by
        simp [renderClassLineC]
      rw [hshape]
      rw [findClasses_cons, matchClassAt_render e.1 e.2 _ (hn e (List.mem_cons_self _ _)).1
        (hn e (List.mem_cons_self _ _)).2 (hg e (List.mem_cons_self _ _))]
      show (e.1, joinWith [' '] e.2) ::
        findClasses ('\n' :: joinWith ['\n'] ((e2 :: rest2).map renderClassLineC)) = _
      rw [findClasses_skip (by decide)]
      rw [ih (fun x hx => hn x (List.mem_cons_of_mem _ hx))
        (fun x hx => hg x (List.mem_cons_of_mem _ hx))]
      rfl

theorem pyJoin_data (sep : String) : ∀ (xs : List String),
    (pyJoin sep xs).data = joinWith sep.data (xs.map String.data) := by
  intro xs
  induction xs with
  | nil => rfl
  | cons x xs ih =>
    cases xs with
    | nil => rfl
    | cons y xs2 =>
      show (x ++ sep ++ pyJoin sep (y :: xs2)).data = _
      rw [string_data_append, string_data_append, ih]
      rfl

/-! ### Invariants of parsed and merged class tables -/

theorem parse_glyph_classes_entries (text : String) :
    ∀ q ∈ parse_glyph_classes text, ∃ content,
      (q.1.data, content) ∈ findClasses text.data ∧
      q.2 = (glyphsOfContent content).map String.mk ∧
      q.1.data ≠ [] ∧ (∀ c ∈ q.1.data, isNameChar c = true) ∧
      findSubFrom srb content = none := by
  intro q hq
  unfold parse_glyph_classes at hq
  obtain ⟨q0, hq0, rfl⟩ := List.mem_map.mp hq
  have hP : ∃ m ∈ findClasses text.data, q0 = (m.1, glyphsOfContent m.2) := by
    refine mem_foldl_dictInsert (fun m : List Char × List Char => (m.1, glyphsOfContent m.2))
      (fun q0 => ∃ m ∈ findClasses text.data, q0 = (m.1, glyphsOfContent m.2))
      (findClasses text.data) [] (fun q2 hq2 => absurd hq2 (List.not_mem_nil q2))
      (fun m hm => ⟨m, hm, rfl⟩) q0 hq0
  obtain ⟨m, hm, rfl⟩ := hP
  obtain ⟨l0, rest, hmatch⟩ := findClasses_from_match m hm
  obtain ⟨hne, hnc, hfree⟩ := matchClassAt_inv hmatch
  exact ⟨m.2, hm, rfl, hne, hnc, hfree⟩

theorem parse_glyph_classes_value_inv (text : String) :
    ∀ q ∈ parse_glyph_classes text, ∀ g ∈ q.2,
      g.data ≠ [] ∧ (∀ c ∈ g.data, isPyWs c = false) ∧ findSubFrom srb g.data = none := by
  intro q hq g hg
  obtain ⟨content, -, hval, -, -, hfree⟩ := parse_glyph_classes_entries text q hq
  rw [hval] at hg
  obtain ⟨t, ht, rfl⟩ := List.mem_map.mp hg
  obtain ⟨ht1, ht2, ht3⟩ := glyphsOfContent_props ht
  exact ⟨ht1, ht2, ht3 hfree⟩

theorem parse_glyph_classes_name_inv (text : String) :
    ∀ q ∈ parse_glyph_classes text,
      q.1.data ≠ [] ∧ ∀ c ∈ q.1.data, isNameChar c = true := by
  intro q hq
  obtain ⟨content, -, -, hne, hnc, -⟩ := parse_glyph_classes_entries text q hq
  exact ⟨hne, hnc⟩

theorem mem_insert_foldl : ∀ (es : List (String × List String)) (acc : List String)
    (x : String), x ∈ es.foldl (fun a q => if q.1 ∈ a then a else a ++ [q.1]) acc →
    x ∈ acc ∨ ∃ gs, (x, gs) ∈ es := by
  intro es
  induction es with
  | nil => intro acc x hx; exact Or.inl hx
  | cons q es ih =>
    intro acc x hx
    rcases ih _ x hx with h | ⟨gs, hgs⟩
    · dsimp only at h
      split at h
      · exact Or.inl h
      · rcases List.mem_append.mp h with h2 | h2
        · exact Or.inl h2
        · rcases List.mem_singleton.mp h2 with rfl
          exact Or.inr ⟨q.2, by rw [Prod.mk.eta]; exact List.mem_cons_self _ _⟩
    · exact Or.inr ⟨gs, List.mem_cons_of_mem _ hgs⟩

theorem nodup_insert_foldl : ∀ (es : List (String × List String)) (acc : List String),
    acc.Nodup → (es.foldl (fun a q => if q.1 ∈ a then a else a ++ [q.1]) acc).Nodup := by
  intro es
  induction es with
  | nil => intro acc h; exact h
  | cons q es ih =>
    intro acc h
    refine ih _ ?_
    dsimp only
    split
    · exact h
    · rename_i hq
      simpa [List.nodup_append, hq] using h

theorem first_seen_class_names_subset (masters_data : List (String × MasterData)) :
    ∀ x ∈ first_seen_class_names masters_data,
      ∃ p ∈ masters_data, ∃ gs, (x, gs) ∈ parse_glyph_classes p.2.features := by
  unfold first_seen_class_names
  suffices h : ∀ (ms : List (String × MasterData)) (acc : List String) (x : String),
      x ∈ ms.foldl (fun acc p => (parse_glyph_classes p.2.features).foldl
        (fun a q => if q.1 ∈ a then a else a ++ [q.1]) acc) acc →
      x ∈ acc ∨ ∃ p ∈ ms, ∃ gs, (x, gs) ∈ parse_glyph_classes p.2.features by
    intro x hx
    rcases h masters_data [] x hx with h2 | h2
    · cases h2
    · exact h2
  intro ms
  induction ms with
  | nil => intro acc x hx; exact Or.inl hx
  | cons p ms ih =>
    intro acc x hx
    rcases ih _ x hx with h | ⟨p2, hp2, gs, hgs⟩
    · rcases mem_insert_foldl _ _ _ h with h2 | ⟨gs, hgs⟩
      · exact Or.inl h2
      · exact Or.inr ⟨p, List.mem_cons_self _ _, gs, hgs⟩
    · exact Or.inr ⟨p2, List.mem_cons_of_mem _ hp2, gs, hgs⟩

theorem first_seen_class_names_nodup (masters_data : List (String × MasterData)) :
    (first_seen_class_names masters_data).Nodup := by
  unfold first_seen_class_names
  suffices h : ∀ (ms : List (String × MasterData)) (acc : List String), acc.Nodup →
      (ms.foldl (fun acc p => (parse_glyph_classes p.2.features).foldl
        (fun a q => if q.1 ∈ a then a else a ++ [q.1]) acc) acc).Nodup by
    exact h masters_data [] List.nodup_nil
  intro ms
  induction ms with
  | nil => intro acc h; exact h
  | cons p ms ih => intro acc h; exact ih _ (nodup_insert_foldl _ _ h)

theorem nodup_keys_mem_lookup {κ α : Type} [DecidableEq κ] :
    ∀ {d : List (κ × α)}, (d.map Prod.fst).Nodup → ∀ {q : κ × α}, q ∈ d →
      dictLookup d q.1 = some q.2 := by
  intro d
  induction d with
  | nil => intro _ q hq; cases hq
  | cons p d ih =>
    intro hnd q hq
    simp only [List.map_cons, List.nodup_cons] at hnd
    rcases List.mem_cons.mp hq with rfl | hq2
    · simp [dictLookup]
    · have hne : ¬ p.1 = q.1 := by
        intro he
        exact hnd.1 (he ▸ List.mem_map.mpr ⟨q, hq2, rfl⟩)
      simp only [dictLookup, hne, if_false]
      exact ih hnd.2 hq2

theorem merge_classes_keys_nodup (masters_data : List (String × MasterData)) :
    ((merge_classes masters_data).map Prod.fst).Nodup := by
  rw [merge_classes_keys]
  exact first_seen_class_names_nodup masters_data

theorem merge_classes_inv (masters_data : List (String × MasterData)) :
    ∀ q ∈ merge_classes masters_data,
      (q.1.data ≠ [] ∧ ∀ c ∈ q.1.data, isNameChar c = true) ∧
      ∀ g ∈ q.2, g.data ≠ [] ∧ (∀ c ∈ g.data, isPyWs c = false) ∧
        findSubFrom srb g.data = none := by
  intro q hq
  constructor
  · have hkey : q.1 ∈ first_seen_class_names masters_data := by
      rw [← merge_classes_keys]
      exact List.mem_map.mpr ⟨q, hq, rfl⟩
    obtain ⟨p, hp, gs, hgs⟩ := first_seen_class_names_subset masters_data q.1 hkey
    exact parse_glyph_classes_name_inv p.2.features (q.1, gs) hgs
  · intro g hg
    have hlook : dictLookup (merge_classes masters_data) q.1 = some q.2 :=
      nodup_keys_mem_lookup (merge_classes_keys_nodup masters_data) hq
    unfold merge_classes at hlook
    have hmem := (mergedClasses_mem_of_some hlook g).mp hg
    obtain ⟨p, hp, u, hu, hgu⟩ := hmem
    obtain ⟨p0, hp0, rfl⟩ := List.mem_map.mp hp
    exact parse_glyph_classes_value_inv p0.2.features (q.1, u) hu g hgu

theorem class_line_data (q : String × List String) :
    ("@" ++ q.1 ++ " = [" ++ pyJoin " " q.2 ++ "];").data =
      renderClassLineC (q.1.data, q.2.map String.data) := by
  rw [string_data_append, string_data_append, string_data_append, string_data_append,
    pyJoin_data]
  rw [show ("@" : String).data = ['@'] from rfl,
    show (" = [" : String).data = [' ', '=', ' ', '['] from rfl,
    show ("];" : String).data = [']', ';'] from rfl,
    show (" " : String).data = [' '] from rfl]
  simp [renderClassLineC]

/-! ### Claim theorems -/

/-- C1: For every collection of per-master class parses, the Class
Merger maps each class name to the union of that name's glyph sets
across all declaring masters — a glyph is in the merged class exactly
when some master's parse declares it under that name — rendered as a
lexically sorted duplicate-free list, and the per-name result is the
same for any processing order of the masters. -/
theorem claim_C1_class_merger_union (parses : List (List (String × List String)))
    (n : String) :
    (∀ g, (∃ gs, dictLookup (merge_parsed_classes parses) n = some gs ∧ g ∈ gs) ↔
        ∃ p ∈ parses, ∃ gs, (n, gs) ∈ p ∧ g ∈ gs) ∧
    (∀ gs, dictLookup (merge_parsed_classes parses) n = some gs →
        List.Sorted (· < ·) gs) ∧
    (∀ parses2, List.Perm parses parses2 →
        dictLookup (merge_parsed_classes parses) n =
          dictLookup (merge_parsed_classes parses2) n) := by
  refine ⟨fun g => mergedClasses_mem parses n g, fun gs h => ?_,
    fun ps2 hp => mergedClasses_order_irrelevant hp n⟩
  obtain ⟨hs, hnd⟩ := mergedClasses_value_props h
  exact hs.lt_of_le hnd

theorem claim_C1_witness :
    (∃ gs, dictLookup (merge_parsed_classes [[("X", ["b", "a"])], [("X", ["a", "c"])]]) "X" =
        some gs ∧ "b" ∈ gs) ∧
    List.Sorted (· < ·) (["a"] : List String) ∧
    dictLookup (merge_parsed_classes [[("X", ["b", "a"])], [("X", ["a", "c"])]]) "X" =
      dictLookup (merge_parsed_classes [[("X", ["a", "c"])], [("X", ["b", "a"])]]) "X" := by
  refine ⟨?_, ?_, ?_⟩
  · exact ((claim_C1_class_merger_union [[("X", ["b", "a"])], [("X", ["a", "c"])]] "X").1
      "b").mpr ⟨[("X", ["b", "a"])], by decide, ["b", "a"], by decide, by decide⟩
  · exact (claim_C1_class_merger_union [[("Y", ["a"])]] "Y").2.1 ["a"] (by decide)
  · exact (claim_C1_class_merger_union [[("X", ["b", "a"])], [("X", ["a", "c"])]] "X").2.2
      [[("X", ["a", "c"])], [("X", ["b", "a"])]] (by decide)

/-- C2: A merged kern entry is emitted exactly when its formatted
variable value is not the literal string "0"; a value mapping whose
every registered master has an empty location formats to "0" (so the
entry is dropped); an actual zero value for a registered master at a
non-empty location formats to the coordinate fragments followed by
":0", which is not "0", so the entry is kept. -/
theorem claim_C2_degenerate_zero (masters_data : List (String × MasterData)) :
    (combine_kern_features masters_data =
      ((accumulate_kern_pairs
          (masters_data.map (fun p => (p.1, parse_kern_pairs p.2.features)))).filter
        (fun e => decide (format_variable_value masters_data e.2 ≠ "0"))).map
        (render_kern_statement masters_data)) ∧
    (∀ mvals : List (String × Int),
      (∀ mv ∈ mvals, ∀ md, dictLookup masters_data mv.1 = some md → md.location = []) →
      format_variable_value masters_data mvals = "0") ∧
    (∀ m md, dictLookup masters_data m = some md → md.location ≠ [] →
      format_variable_value masters_data [(m, 0)] =
          pyJoin " " (formatLocation md.location) ++ ":" ++ "0" ∧
        format_variable_value masters_data [(m, 0)] ≠ "0") :=
  ⟨combine_kern_features_eq masters_data,
    fun mvals h => format_variable_value_all_empty_locations masters_data mvals h,
    fun m md hm hl => format_variable_value_single_zero masters_data m md hm hl⟩

theorem claim_C2_witness :
    format_variable_value
        [("A", { location := [], features := "" }),
         ("B", { location := [("wght", 100)], features := "" })] [("A", 5)] = "0" ∧
    format_variable_value
        [("A", { location := [], features := "" }),
         ("B", { location := [("wght", 100)], features := "" })] [("B", 0)] =
      pyJoin " " (formatLocation [("wght", 100)]) ++ ":" ++ "0" := by
  constructor
  · refine (claim_C2_degenerate_zero _).2.1 [("A", 5)] ?_
    intro mv hmv md hmd
    rcases List.mem_singleton.mp hmv with rfl
    have heval : dictLookup
        [("A", ({ location := [], features := "" } : MasterData)),
         ("B", { location := [("wght", 100)], features := "" })] "A" =
        some { location := [], features := "" } := by decide
    rw [heval] at hmd
    injection hmd with hmd
    rw [← hmd]
  · exact ((claim_C2_degenerate_zero _).2.2 "B" { location := [("wght", 100)], features := "" }
      (by decide) (by decide)).1

/-- C3: Scenario 1 of the spec — masters Light at wght=100 and Bold at
wght=900, each with a kern block positioning the pair A V, merge into
exactly one statement carrying both masters' values in variable
syntax. -/
theorem claim_C3_two_master_scenario :
    combine_kern_features
      [("Light", { location := [("wght", 100)], features := "feature kern { pos A V : -50 ; } kern;" }),
       ("Bold", { location := [("wght", 900)], features := "feature kern { pos A V : -80 ; } kern;" })] =
      ["    pos A V (wght=100:-50 wght=900:-80);"] := by decide

/-- C4 counterexample: the generated output emits the glyph-class
declaration lines in first-seen order, not sorted by class name — a
master declaring Zeta before Alpha yields the Zeta line first although
"Zeta" is not ≤ "Alpha", refuting the sortedness claim. -/
theorem claim_C4_counterexample :
    generate_variable_features
        [("M", { location := [], features := "@Zeta = [z];\n@Alpha = [a];" })] [] =
      "# Variable features.fea generated from designspace masters\n# Combined from UFO sources in designspace\n\n# Glyph class definitions\n@Zeta = [z];\n@Alpha = [a];\n" ∧
    class_declaration_lines
        [("M", { location := [], features := "@Zeta = [z];\n@Alpha = [a];" })] =
      ["@Zeta = [z];", "@Alpha = [a];"] ∧
    ¬ ("Zeta" : String) ≤ "Alpha" := by
  refine ⟨by decide, by decide, ?_⟩
  rw [not_le]
  rw [String.lt_iff_toList_lt]
  decide

/-- C4 amended: in the generated output the glyph-class declaration
lines appear in first-seen class-name order (the dict iteration order
of `combined_classes`), each rendered as
`@<name> = [<space-joined glyphs>];`. -/
theorem claim_C4_amended (masters_data : List (String × MasterData)) :
    class_declaration_lines masters_data =
      (merge_classes masters_data).map
        (fun p => "@" ++ p.1 ++ " = [" ++ pyJoin " " p.2 ++ "];") ∧
    (merge_classes masters_data).map Prod.fst = first_seen_class_names masters_data :=
  ⟨rfl, merge_classes_keys masters_data⟩

/-- C5: the Other-Feature Collector stores the non-kern feature blocks
of all masters in a Python set — deduplicated by exact string equality
and with the kern block excluded.  At the failing input, two masters
sharing one liga block and differing in an ss01 block yield exactly the
two-element set; the set carries no emission order (C5's "first-seen
order" claim is the code bug: CPython iterates this set in
hash-randomized order). -/
theorem claim_C5_set_content :
    collect_other_features
      [("F1", { location := [], features := "feature liga { sub f f by f_f; } liga;\nfeature kern { pos A V : -5 ; } kern;" }),
       ("F2", { location := [], features := "feature liga { sub f f by f_f; } liga;\nfeature ss01 { sub a by a.alt; } ss01;" })] =
      {"feature liga { sub f f by f_f; } liga;", "feature ss01 { sub a by a.alt; } ss01;"} := by
  decide

/-- C6 counterexample: the Class Parser does not deduplicate — the
declaration `@X = [A B A];` parses to the glyph list [A, B, A], which
contains A twice. -/
theorem claim_C6_counterexample :
    parse_glyph_classes "@X = [A B A];" = [("X", ["A", "B", "A"])] ∧
    ¬ (["A", "B", "A"] : List String).Nodup := by
  refine ⟨by decide, by decide⟩

/-- C6 amended: for each matched class declaration the parser returns
the declaration's whitespace-delimited glyph tokens in order, with
empty tokens discarded but duplicates preserved: every parsed entry's
glyph list is exactly the token list of its matched bracket content. -/
theorem claim_C6_amended (text : String) :
    ∀ q ∈ parse_glyph_classes text,
      (∀ g ∈ q.2, g ≠ "") ∧
      ∃ content, (q.1.data, content) ∈ findClasses text.data ∧
        q.2 = (glyphsOfContent content).map String.mk := by
  intro q hq
  constructor
  · intro g hg he
    have hv := parse_glyph_classes_value_inv text q hq g hg
    rw [he] at hv
    exact hv.1 rfl
  · obtain ⟨content, hc1, hc2, -, -, -⟩ := parse_glyph_classes_entries text q hq
    exact ⟨content, hc1, hc2⟩

theorem claim_C6_witness :
    (("X", ["A", "B", "A"]) ∈ parse_glyph_classes "@X = [A B A];") ∧
    ((∀ g ∈ (["A", "B", "A"] : List String), g ≠ "") ∧
      ∃ content, (("X" : String).data, content) ∈ findClasses ("@X = [A B A];").data ∧
        (["A", "B", "A"] : List String) = (glyphsOfContent content).map String.mk) :=
  ⟨by decide, claim_C6_amended "@X = [A B A];" ("X", ["A", "B", "A"]) (by decide)⟩

/-- C7: kern merge keys compare glyph specifications by exact string
equality — two masters writing `A V` and `A  V` (internal whitespace
differs) produce two distinct merged kern entries, never one. -/
theorem claim_C7_whitespace_keys :
    ((accumulate_kern_pairs
        ([("M1", ({ location := [("wght", 100)], features := "feature kern { pos A V : -10 ; } kern;" } : MasterData)),
          ("M2", { location := [("wght", 900)], features := "feature kern { pos A  V : -20 ; } kern;" })].map
          (fun p => (p.1, parse_kern_pairs p.2.features)))).map Prod.fst =
      [("A V", false), ("A  V", false)]) ∧
    ("A V" : String) ≠ "A  V" ∧
    combine_kern_features
        [("M1", { location := [("wght", 100)], features := "feature kern { pos A V : -10 ; } kern;" }),
         ("M2", { location := [("wght", 900)], features := "feature kern { pos A  V : -20 ; } kern;" })] =
      ["    pos A V (wght=100:-10);", "    pos A  V (wght=900:-20);"] := by
  refine ⟨by decide, by decide, by decide⟩

/-- C8: a kern statement whose value text holds no signed integer
literal contributes to no merged kern entry — filtering such statements
out leaves the accumulated table unchanged — while a statement with a
literal contributes the first signed integer literal of its value text;
processing is total, and the concrete Scenario-3 master with value
`<NULL>` produces an empty kern block without error. -/
theorem claim_C8_nonnumeric_dropped :
    (∀ parsed : List (String × List KernPair),
      accumulate_kern_pairs parsed =
        accumulate_kern_pairs (parsed.map
          (fun mp => (mp.1, mp.2.filter (fun kp => (firstIntLiteral kp.value.data).isSome))))) ∧
    (∀ (n : String) (p : KernPair),
      accumulate_kern_pairs [(n, [p])] =
        match firstIntLiteral p.value.data with
        | some v => [((p.glyphs, p.is_enum), [(n, v)])]
        | none => []) ∧
    combine_kern_features
        [("M", { location := [("wght", 400)], features := "feature kern { pos A V : <NULL> ; } kern;" })] = [] :=
  ⟨accumulate_kern_pairs_filter, accumulate_kern_pairs_single, by decide⟩

/-- C9: feeding the class-declaration text emitted by the Output
Generator back into the Class Parser reproduces the merged class table
exactly (and hence the same name-to-glyph-set mapping). -/
theorem claim_C9_roundtrip (masters_data : List (String × MasterData)) :
    parse_glyph_classes (pyJoin "\n" (class_declaration_lines masters_data)) =
      merge_classes masters_data := by
  have hM := merge_classes_inv masters_data
  have hdata : (pyJoin "\n" (class_declaration_lines masters_data)).data =
      joinWith ['\n'] (((merge_classes masters_data).map
        (fun q => (q.1.data, q.2.map String.data))).map renderClassLineC) := by
    rw [pyJoin_data]
    rw [show ("\n" : String).data = ['\n'] from rfl]
    congr 1
    unfold class_declaration_lines
    rw [List.map_map, List.map_map]
    exact List.map_congr_left (fun q _ => class_line_data q)
  have hEn : ∀ e ∈ (merge_classes masters_data).map
      (fun q => (q.1.data, q.2.map String.data)),
      e.1 ≠ [] ∧ ∀ c ∈ e.1, isNameChar c = true := by
    intro e he
    obtain ⟨q, hq, rfl⟩ := List.mem_map.mp he
    exact (hM q hq).1
  have hEg : ∀ e ∈ (merge_classes masters_data).map
      (fun q => (q.1.data, q.2.map String.data)),
      findSubFrom srb (joinWith [' '] e.2) = none := by
    intro e he
    obtain ⟨q, hq, rfl⟩ := List.mem_map.mp he
    refine joinWith_space_srb_free _ ?_
    intro g hg
    obtain ⟨g0, hg0, rfl⟩ := List.mem_map.mp hg
    exact ((hM q hq).2 g0 hg0).2.2
  have hfind := findClasses_render _ hEn hEg
  have htok : ∀ e ∈ (merge_classes masters_data).map
      (fun q => (q.1.data, q.2.map String.data)),
      glyphsOfContent (joinWith [' '] e.2) = e.2 := by
    intro e he
    obtain ⟨q, hq, rfl⟩ := List.mem_map.mp he
    refine glyphsOfContent_join _ ?_ ?_
    · intro g hg
      obtain ⟨g0, hg0, rfl⟩ := List.mem_map.mp hg
      exact ((hM q hq).2 g0 hg0).1
    · intro g hg
      obtain ⟨g0, hg0, rfl⟩ := List.mem_map.mp hg
      exact ((hM q hq).2 g0 hg0).2.1
  have hnodup : ((((merge_classes masters_data).map
      (fun q => (q.1.data, q.2.map String.data))).map
        (fun e => (e.1, joinWith [' '] e.2))).map
      (fun m => (m.1, glyphsOfContent m.2)) |>.map Prod.fst).Nodup := by
    rw [List.map_map, List.map_map]
    have : ((merge_classes masters_data).map
        (fun q : String × List String => q.1.data)).Nodup := by
      have h2 := merge_classes_keys_nodup masters_data
      rw [show (merge_classes masters_data).map
          (fun q : String × List String => q.1.data) =
          ((merge_classes masters_data).map Prod.fst).map String.data from by
        rw [List.map_map]
        rfl]
      exact h2.map string_data_injective
    simpa using this
  have hfold : parseClassesC (pyJoin "\n" (class_declaration_lines masters_data)).data =
      (merge_classes masters_data).map (fun q => (q.1.data, q.2.map String.data)) := by
    unfold parseClassesC
    rw [hdata, hfind]
    rw [foldl_dictInsert_eq_append (fun m : List Char × List Char =>
      (m.1, glyphsOfContent m.2)) _ [] (by simp) hnodup]
    rw [List.nil_append, List.map_map]
    refine (List.map_congr_left ?_).trans (List.map_id _)
    intro e he
    show (e.1, glyphsOfContent (joinWith [' '] e.2)) = e
    rw [htok e he]
  unfold parse_glyph_classes
  rw [hfold, List.map_map]
  refine (List.map_congr_left ?_).trans (List.map_id _)
  intro q _
  show (String.mk q.1.data, (q.2.map String.data).map String.mk) = q
  rw [string_mk_data, List.map_map]
  rw [show q.2.map (String.mk ∘ String.data) = q.2 from
    (List.map_congr_left (fun g _ => string_mk_data g)).trans (List.map_id _)]

/-- C10: the Variable Value Formatter silently skips entries whose
master identifier is absent from the registry — filtering the value
mapping down to its registered entries does not change the result — and
when no entry is registered it returns the literal string "0". -/
theorem claim_C10_unregistered_skipped (masters_data : List (String × MasterData))
    (mvals : List (String × Int)) :
    format_variable_value masters_data
        (mvals.filter (fun mv => (dictLookup masters_data mv.1).isSome)) =
      format_variable_value masters_data mvals ∧
    ((∀ mv ∈ mvals, dictLookup masters_data mv.1 = none) →
      format_variable_value masters_data mvals = "0") :=
  ⟨format_variable_value_filter_registered masters_data mvals,
    fun h => format_variable_value_all_unregistered masters_data mvals h⟩

theorem claim_C10_witness :
    format_variable_value [("A", { location := [("wght", 1)], features := "" })]
        (([("B", 3)] : List (String × Int)).filter
          (fun mv => (dictLookup [("A",
            ({ location := [("wght", 1)], features := "" } : MasterData))] mv.1).isSome)) =
      format_variable_value [("A", { location := [("wght", 1)], features := "" })] [("B", 3)] ∧
    format_variable_value [("A", { location := [("wght", 1)], features := "" })] [("B", 3)] =
      "0" := by
  constructor
  · exact (claim_C10_unregistered_skipped _ _).1
  · exact (claim_C10_unregistered_skipped
      [("A", { location := [("wght", 1)], features := "" })] [("B", 3)]).2 (by decide)

end Feamerge
